import Mathlib

/-!
Verification of `sync_folders.py`, a one-way folder synchronizer.

The program is embedded shallowly:

* A filesystem tree is a flat table: a list of (path, file data) pairs for
  regular files plus a list of directory paths.  Paths are lists of name
  components, relative to the tree root (`[]` is the root; `os.path.relpath`
  / `os.path.join` / `os.path.normpath` plumbing of the Python code is
  abstracted away by working with relative component lists throughout).
* `os.path.exists` is type-agnostic, so `FS.pathExists` holds for a path
  carrying either a file or a directory.
* File data carries the byte content, an `mtime` and a `mode` field (metadata
  preserved by `shutil.copy2` but irrelevant to digests) and a `readable`
  flag; an unreadable file is exactly the §4.1 "cannot be opened or read"
  error condition of `calculate_sha256`.
* The SHA-256 digest itself is kept abstract as a parameter
  `dig : List Nat → Nat` (its value stands for the 256-bit digest);
  `calculate_sha256` reads the file in 4096-byte chunks, folds them into the
  accumulator exactly as the Python loop does, and renders the digest as a
  fixed-width (64 hex digit) string, returning `none` when the read fails
  (the Python function logs the error and falls off the end, returning
  `None`).
* Each pass is a fold over a list of walk events.  `os.walk` of the source
  (top-down) visits parents before children; `os.walk(replica, topdown=False)`
  visits children before parents.  Both walks enumerate directories in an
  OS-dependent sibling order, so the model fixes one admissible order:
  directories sorted by depth (ascending for the additive pass, descending
  for the subtractive pass).  A special `err` event models a failure of the
  walk itself (root vanished, directory unreadable), which the Python code
  turns into `sys.exit(1)` via the outer try/except of each pass.
* The global change counter is threaded through the state; faithfully to the
  Python code, `count += 1` is executed *before* the guarded operation, so a
  failing operation has already incremented it.
-/

namespace SyncFolders

abbrev Seg := String
abbrev Path := List Seg

/-- Parent directory of a relative path (`os.path.dirname`). -/
def parent (p : Path) : Path := p.dropLast

/-- Data stored for one regular file.  `content` is the byte stream;
`mtime`/`mode` model the metadata `shutil.copy2` preserves; `readable = false`
models a file whose open/read fails (permissions, I/O error). -/
structure FileData where
  content : List Nat
  mtime : Nat
  mode : Nat
  readable : Bool
deriving DecidableEq, Repr

/-- A directory tree, as the flat table of its entries.  Paths are component
lists relative to the tree root; `[]` denotes the root directory itself. -/
structure FS where
  files : List (Path × FileData)
  dirs : List Path
deriving DecidableEq, Repr

/-- First-match lookup in an association list of path/file-data pairs. -/
def lookFD : List (Path × FileData) → Path → Option FileData
  | [], _ => none
  | pr :: l, p => if pr.1 = p then some pr.2 else lookFD l p

def FS.lookupFile (fs : FS) (p : Path) : Option FileData :=
  lookFD fs.files p

def FS.isFile (fs : FS) (p : Path) : Bool :=
  (fs.lookupFile p).isSome

def FS.isDir (fs : FS) (p : Path) : Bool :=
  decide (p ∈ fs.dirs)

/-- `os.path.exists`: true for a file or a directory at the path. -/
def FS.pathExists (fs : FS) (p : Path) : Bool :=
  fs.isFile p || fs.isDir p

/-- Well-formedness of a tree: the root is a directory, every entry hangs
under a directory, no path is both a file and a directory, and the tables
have no duplicate keys. -/
def FS.wfb (fs : FS) : Bool :=
  fs.isDir [] &&
  fs.files.all (fun pr => !(pr.1.isEmpty) && fs.isDir (parent pr.1) && !(fs.isDir pr.1)) &&
  fs.dirs.all (fun d => d.isEmpty || fs.isDir (parent d)) &&
  decide ((fs.files.map Prod.fst).Nodup) &&
  decide (fs.dirs.Nodup)

/-- `os.makedirs` succeeds iff no step of the path is occupied by a file. -/
def FS.canMakedirs (fs : FS) (p : Path) : Bool :=
  !(p.inits.any fun q => fs.isFile q)

/-- `os.makedirs`: create the directory and all missing ancestors. -/
def FS.makedirs (fs : FS) (p : Path) : FS :=
  { fs with dirs := fs.dirs ++ (p.inits.filter fun q => !(fs.isDir q)) }

/-- Create or overwrite the regular file at `p`. -/
def FS.setFile (fs : FS) (p : Path) (fd : FileData) : FS :=
  if fs.isFile p then
    { fs with files := fs.files.map fun pr => if pr.1 = p then (p, fd) else pr }
  else
    { fs with files := (p, fd) :: fs.files }

/-- `shutil.copy2 src dst` where the source file (named `fname`) has data
`fd`.  Copying fails when the source cannot be read or the destination's
parent is not a directory; when `dst` itself is a directory, `copy2` copies
*into* it under the source's basename. -/
def FS.copy2 (fs : FS) (dst : Path) (fname : Seg) (fd : FileData) : Option FS :=
  if fd.readable = false then none
  else if fs.isDir dst then
    if fs.isDir (dst ++ [fname]) then none
    else some (fs.setFile (dst ++ [fname]) fd)
  else if fs.isDir (parent dst) then some (fs.setFile dst fd)
  else none

/-- `os.remove`: delete a regular file; fails on a directory or a missing
path. -/
def FS.removeFile (fs : FS) (p : Path) : Option FS :=
  if fs.isFile p then
    some { fs with files := fs.files.filter fun pr => !(decide (pr.1 = p)) }
  else none

/-- `shutil.rmtree`: delete a directory together with its whole subtree;
fails on a non-directory. -/
def FS.rmtree (fs : FS) (p : Path) : Option FS :=
  if fs.isDir p then
    some { files := fs.files.filter fun pr => !(p.isPrefixOf pr.1),
           dirs := fs.dirs.filter fun q => !(p.isPrefixOf q) }
  else none

/-! ### The digest calculator (`calculate_sha256`, lines 25-43) -/

/-- Chunk splitting, by structural recursion on a fuel bound (any fuel at
least the stream length yields the chunks the Python read loop produces). -/
def chunksFuel : Nat → List Nat → List (List Nat)
  | _, [] => []
  | 0, _ :: _ => []
  | fuel + 1, a :: l => (a :: l).take 4096 :: chunksFuel fuel ((a :: l).drop 4096)

/-- `iter(lambda: file.read(4096), b"")`: split the byte stream into
successive chunks of at most 4096 bytes. -/
def chunks (l : List Nat) : List (List Nat) := chunksFuel l.length l

/-- The `hash_sha256.update` loop: the accumulator state of an incremental
SHA-256 is determined by the bytes fed so far, so feeding the chunks in
order accumulates their concatenation. -/
def shaFeed (l : List Nat) : List Nat :=
  (chunks l).foldl (fun acc c => acc ++ c) []

/-- `hexdigest()`: render a digest value as a fixed-width string of 64
hexadecimal digits (big-endian). -/
def hexDigits (w n : Nat) : List Nat :=
  (List.range w).map fun i => n / 16 ^ (w - 1 - i) % 16

/-- Open the file for reading; `none` is the §4.1 error condition (missing
path, a directory, or an unreadable file). -/
def FS.readFile (fs : FS) (p : Path) : Option (List Nat) :=
  match fs.lookupFile p with
  | some fd => if fd.readable then some fd.content else none
  | none => none

/-- `calculate_sha256` (lines 25-43): on success, the hex rendering of the
digest of the chunk-fed byte stream; on failure the Python function logs an
error and implicitly returns `None`, so no exception reaches the caller. -/
def calculate_sha256 (dig : List Nat → Nat) (fs : FS) (p : Path) : Option (List Nat) :=
  match fs.readFile p with
  | some c => some (hexDigits 64 (dig (shaFeed c)))
  | none => none

/-! ### Events, pass state and the two reconcilers -/

/-- One logged outcome of a per-item action.  The `*Fail` events are the
warnings/errors of the per-item `except` branches; `fatalError` is the
"Unknown error ... The script will stop." message of the outer handlers. -/
inductive Ev where
  | createdDir (p : Path)
  | copied (p : Path)
  | removedFile (p : Path)
  | removedDir (p : Path)
  | digestFail (p : Path)
  | createDirFail (p : Path)
  | copyFail (p : Path)
  | removeFileFail (p : Path)
  | removeDirFail (p : Path)
  | fatalError
deriving DecidableEq, Repr

/-- Mutable state of one synchronization cycle: the replica tree, the global
change counter `count`, and the chronological event log. -/
structure St where
  fs : FS
  count : Nat
  evs : List Ev
deriving DecidableEq, Repr

/-- Per-item failures (the recovered, logged-and-continue errors). -/
def Ev.isFailure : Ev → Bool
  | .digestFail _ => true
  | .createDirFail _ => true
  | .copyFail _ => true
  | .removeFileFail _ => true
  | .removeDirFail _ => true
  | .fatalError => true
  | _ => false

/-- A successfully performed create/copy/remove operation. -/
def Ev.isSuccessOp : Ev → Bool
  | .createdDir _ => true
  | .copied _ => true
  | .removedFile _ => true
  | .removedDir _ => true
  | _ => false

/-- An operation attempt: the code executes `count += 1` exactly when one of
these events is produced (lines 78, 95, 134, 145 precede the guarded call). -/
def Ev.isAttempt : Ev → Bool
  | .createdDir _ => true
  | .copied _ => true
  | .removedFile _ => true
  | .removedDir _ => true
  | .createDirFail _ => true
  | .copyFail _ => true
  | .removeFileFail _ => true
  | .removeDirFail _ => true
  | _ => false

def noFail (evs : List Ev) : Bool := !(evs.any Ev.isFailure)

def countAttempts (evs : List Ev) : Nat := (evs.filter Ev.isAttempt).length

def countSuccesses (evs : List Ev) : Nat := (evs.filter Ev.isSuccessOp).length

/-- Lines 94-101: `count += 1`, then attempt `shutil.copy2`. -/
def copyAttempt (source : FS) (p : Path) (f : Seg) (st : St) : St :=
  let st1 : St := { st with count := st.count + 1 }
  match source.lookupFile p with
  | some fd =>
    match st1.fs.copy2 p f fd with
    | some fs2 => { st1 with fs := fs2, evs := st1.evs ++ [Ev.copied p] }
    | none => { st1 with evs := st1.evs ++ [Ev.copyFail p] }
  | none => { st1 with evs := st1.evs ++ [Ev.copyFail p] }

/-- Lines 87-101, one file of the additive pass.  Python's `or` on line 93
short-circuits: no digest is computed when the replica file is missing;
otherwise the source digest is computed first, then the replica digest, and
each failed digest logs an error. -/
def fileStep (dig : List Nat → Nat) (source : FS) (d : Path) (f : Seg) (st : St) : St :=
  let p := d ++ [f]
  if st.fs.pathExists p then
    let ds := calculate_sha256 dig source p
    let dr := calculate_sha256 dig st.fs p
    let st1 : St := { st with evs := st.evs ++
      ((if ds.isNone then [Ev.digestFail p] else []) ++
       (if dr.isNone then [Ev.digestFail p] else [])) }
    if ds ≠ dr then copyAttempt source p f st1 else st1
  else copyAttempt source p f st

/-- Lines 76-84, the directory part of the additive pass. -/
def dirStep (st : St) (d : Path) : St :=
  if st.fs.pathExists d then st
  else
    let st1 : St := { st with count := st.count + 1 }
    if st1.fs.canMakedirs d then
      { st1 with fs := st1.fs.makedirs d, evs := st1.evs ++ [Ev.createdDir d] }
    else { st1 with evs := st1.evs ++ [Ev.createDirFail d] }

/-- One `(dirpath, dirnames, filenames)` item of the additive walk. -/
def addDirStep (dig : List Nat → Nat) (source : FS) (st : St) (d : Path) (files : List Seg) : St :=
  files.foldl (fun st f => fileStep dig source d f st) (dirStep st d)

/-- Lines 127-140, one file of the subtractive pass. -/
def removeFileStep (source : FS) (d : Path) (f : Seg) (st : St) : St :=
  let p := d ++ [f]
  if source.pathExists p then st
  else
    let st1 : St := { st with count := st.count + 1 }
    match st1.fs.removeFile p with
    | some fs2 => { st1 with fs := fs2, evs := st1.evs ++ [Ev.removedFile p] }
    | none => { st1 with evs := st1.evs ++ [Ev.removeFileFail p] }

/-- Lines 127-151, one `(dirpath, _, filenames)` item of the subtractive
walk: first the files, then the directory itself. -/
def removeDirStep (source : FS) (st : St) (d : Path) (files : List Seg) : St :=
  let st1 := files.foldl (fun st f => removeFileStep source d f st) st
  if source.pathExists d then st1
  else
    let st2 : St := { st1 with count := st1.count + 1 }
    match st2.fs.rmtree d with
    | some fs2 => { st2 with fs := fs2, evs := st2.evs ++ [Ev.removedDir d] }
    | none => { st2 with evs := st2.evs ++ [Ev.removeDirFail d] }

/-- One event of a directory walk: a visited directory with its file names,
or a failure of the traversal itself. -/
inductive WEv where
  | visit (d : Path) (files : List Seg)
  | err
deriving DecidableEq, Repr

/-- Result of one pass (or one cycle): normal completion, or process
termination through `sys.exit` with the given status. -/
inductive PassOut where
  | ok (st : St)
  | fatal (st : St) (code : Nat)
deriving DecidableEq, Repr

/-- The state carried by either outcome. -/
def PassOut.st : PassOut → St
  | .ok s => s
  | .fatal s _ => s

def stepAdd (dig : List Nat → Nat) (source : FS) (st : St) : WEv → St
  | .visit d files => addDirStep dig source st d files
  | .err => st

def addFold (dig : List Nat → Nat) (source : FS) (L : List WEv) (st : St) : St :=
  L.foldl (stepAdd dig source) st

/-- `add_files_and_directories` over an explicit walk-event stream: the
outer try/except (lines 103-106) turns a traversal error into an error log
plus `sys.exit(1)`; per-item failures are handled inside and never escape. -/
def runAdd (dig : List Nat → Nat) (source : FS) : List WEv → St → PassOut
  | [], st => .ok st
  | .err :: _, st => .fatal { st with evs := st.evs ++ [Ev.fatalError] } 1
  | .visit d files :: rest, st => runAdd dig source rest (addDirStep dig source st d files)

def stepRemove (source : FS) (st : St) : WEv → St
  | .visit d files => removeDirStep source st d files
  | .err => st

def removeFold (source : FS) (L : List WEv) (st : St) : St :=
  L.foldl (stepRemove source) st

/-- `remove_files_and_directories` over an explicit walk-event stream, with
the outer try/except of lines 153-156. -/
def runRemove (source : FS) : List WEv → St → PassOut
  | [], st => .ok st
  | .err :: _, st => .fatal { st with evs := st.evs ++ [Ev.fatalError] } 1
  | .visit d files :: rest, st => runRemove source rest (removeDirStep source st d files)

/-! ### The walks -/

def FS.maxDepth (fs : FS) : Nat := (fs.dirs.map List.length).foldr Nat.max 0

/-- All directories of the tree, shallowest first — an admissible sibling
order for the top-down `os.walk` of line 69 (parents precede children). -/
def FS.dirsByDepth (fs : FS) : List Path :=
  ((List.range (fs.maxDepth + 1)).map fun k => fs.dirs.filter fun d => d.length = k).flatten

/-- Names of the regular files directly inside directory `d`. -/
def FS.filesIn (fs : FS) (d : Path) : List Seg :=
  (fs.files.map Prod.fst).filterMap fun q =>
    if q.dropLast = d then q.getLast? else none

/-- The walk of the source tree performed by the additive pass (top-down). -/
def FS.addWalk (fs : FS) : List WEv :=
  fs.dirsByDepth.map fun d => WEv.visit d (fs.filesIn d)

/-- Directory order of `os.walk(replica, topdown=False)`: deepest first. -/
def FS.removeWalkDirs (fs : FS) : List Path := fs.dirsByDepth.reverse

/-- The walk of the replica tree performed by the subtractive pass
(bottom-up: every directory after its contents). -/
def FS.removeWalk (fs : FS) : List WEv :=
  fs.removeWalkDirs.map fun d => WEv.visit d (fs.filesIn d)

/-- `add_files_and_directories(source, replica)` (lines 58-106). -/
def add_files_and_directories (dig : List Nat → Nat) (source : FS) (st : St) : PassOut :=
  runAdd dig source source.addWalk st

/-- `remove_files_and_directories(source, replica)` (lines 109-156): the
walk enumerates the replica tree as it stands when the pass starts. -/
def remove_files_and_directories (source : FS) (st : St) : PassOut :=
  runRemove source st.fs.removeWalk st

/-- `sync_folders(source, replica)` (lines 46-55): additive pass, then
subtractive pass; a fatal traversal error ends the process. -/
def sync_folders (dig : List Nat → Nat) (source : FS) (st : St) : PassOut :=
  match add_files_and_directories dig source st with
  | .fatal s c => .fatal s c
  | .ok s => remove_files_and_directories source s

/-- One cycle of the main loop (lines 248-249): reset `count` to zero, then
`sync_folders`. -/
def syncCycle (dig : List Nat → Nat) (source replica : FS) : PassOut :=
  sync_folders dig source { fs := replica, count := 0, evs := [] }

/-- One cycle over explicit walk-event streams (used to state what happens
when a traversal raises, which the computed walks of an unchanging tree
never do). -/
def syncCycleEvents (dig : List Nat → Nat) (source : FS)
    (addEvs remEvs : List WEv) (replica : FS) : PassOut :=
  match runAdd dig source addEvs { fs := replica, count := 0, evs := [] } with
  | .fatal s c => .fatal s c
  | .ok s => runRemove source remEvs s

inductive DriverOut where
  | running (fs : FS)
  | exited (code : Nat)
deriving DecidableEq, Repr

/-- The main loop (lines 244-255): one cycle per interval tick.  A fatal
traversal error calls `sys.exit(1)` inside the pass; the resulting
`SystemExit` is not an `Exception`, so it passes the `except Exception`
handler of `main` and ends the whole process. -/
def runDriver (dig : List Nat → Nat) (source : FS) :
    List (List WEv × List WEv) → FS → DriverOut
  | [], fs => .running fs
  | (a, r) :: rest, fs =>
    match syncCycleEvents dig source a r fs with
    | .ok st => runDriver dig source rest st.fs
    | .fatal _ c => .exited c

/-- Lines 231-237: outcome of the interactive confirmation loop. -/
inductive ConfirmOutcome where
  | proceed
  | exitWith (code : Nat)
  | prompting
deriving DecidableEq, Repr

/-- The `while yes_no not in ["y","n"]` re-prompt loop, fed the operator's
successive answers: the first "y" proceeds, the first "n" runs
`sys.exit(0)`, anything else keeps prompting. -/
def confirmOutcome (answers : List String) : ConfirmOutcome :=
  match answers.find? (fun a => a == "y" || a == "n") with
  | none => .prompting
  | some a => if a = "n" then .exitWith 0 else .proceed

/-- Lines 256-263: the two terminal paths of the main loop. -/
inductive TermEv where
  | keyboardInterrupt
  | unexpectedError
deriving DecidableEq, Repr

def termLogLevel : TermEv → String
  | .keyboardInterrupt => "info"
  | .unexpectedError => "error"

def termMessage : TermEv → String
  | .keyboardInterrupt => "Program interrupted by user. Synchronization completed."
  | .unexpectedError => "An unexpected error occurred"

def termExitCode : TermEv → Nat
  | .keyboardInterrupt => 1
  | .unexpectedError => 1

/-! ### Derived notions and concrete fixtures used by the development -/

/-- Prop-level well-formedness (the components of `FS.wfb`). -/
structure WF (fs : FS) : Prop where
  root : fs.isDir [] = true
  fileParent : ∀ pr ∈ fs.files, pr.1 ≠ [] ∧ fs.isDir (parent pr.1) = true
  fileNotDir : ∀ pr ∈ fs.files, fs.isDir pr.1 = false
  dirParent : ∀ d ∈ fs.dirs, d ≠ [] → fs.isDir (parent d) = true
  keysNodup : (fs.files.map Prod.fst).Nodup
  dirsNodup : fs.dirs.Nodup

/-- One step appends events, and adds to the counter exactly the number of
operation attempts among the appended events. -/
def StepShape (st st' : St) : Prop :=
  ∃ l, st'.evs = st.evs ++ l ∧ st'.count = st.count + countAttempts l

/-- The state of one source file in the replica after its visit: present,
with the same fingerprint as the source copy, both fingerprints defined. -/
def FileOK (dig : List Nat → Nat) (S fs : FS) (p : Path) : Prop :=
  fs.isFile p = true ∧
  calculate_sha256 dig fs p = calculate_sha256 dig S p ∧
  (calculate_sha256 dig S p).isSome = true

/-- Invariant carried through the additive fold: the replica stays
well-formed, and every entry it holds traces back to the initial replica
or to the source. -/
structure AddInv (S R : FS) (st : St) : Prop where
  wf : WF st.fs
  dirOrigin : ∀ q, st.fs.isDir q = true → R.isDir q = true ∨ S.isDir q = true
  fileOrigin : ∀ q, st.fs.isFile q = true → R.isFile q = true ∨ S.isFile q = true

/-- A concrete stand-in for the SHA-256 value function. -/
def digLen : List Nat → Nat := fun c => c.length

def fdPlain : FileData := { content := [104, 105], mtime := 0, mode := 420, readable := true }

def fdOther : FileData := { content := [104, 111], mtime := 7, mode := 384, readable := true }

def fdHidden : FileData := { content := [104, 105], mtime := 0, mode := 0, readable := false }

def fdHidden2 : FileData := { content := [104, 111], mtime := 3, mode := 0, readable := false }

/-- A source tree that is just an empty root. -/
def rootOnly : FS := { files := [], dirs := [[]] }

def stRoot : St := { fs := rootOnly, count := 0, evs := [] }

/-- Source fixture for the C5 witness: just a kept directory `k`. -/
def srcK : FS := { files := [], dirs := [[], ["k"]] }

/-- Replica fixture for the C5 witness: one stale root file and a stale
nested subtree `s/n`, plus the kept directory `k`. -/
def replStale : FS :=
  { files := [([ "old" ], fdPlain), ([ "s", "n" ], fdOther)], dirs := [[], ["k"], ["s"]] }

def stReplStale : St := { fs := replStale, count := 0, evs := [] }

/-- The additional hypothesis forced on the convergence claim: no replica
file sits at a relative path where the source has a directory.  (When it
does and the source directory is empty, the cycle finishes without any
failure but the replica keeps the file — see the counterexample.) -/
def noDirFileConflict (S R : FS) : Bool :=
  R.files.all fun pr => !(S.isDir pr.1)

/-- Source fixture for the C1 counterexample: an empty directory `d`. -/
def cexS1 : FS := { files := [], dirs := [[], ["d"]] }

/-- Replica fixture for the C1 counterexample: a regular file `d`. -/
def cexR1 : FS := { files := [([ "d" ], fdPlain)], dirs := [[]] }

/-- Source fixture for the C4 witness: one file `a`. -/
def srcA : FS := { files := [([ "a" ], fdPlain)], dirs := [[]] }

/-- Same content as `fdPlain`, different modification time and mode. -/
def fdPlain2 : FileData := { content := [104, 105], mtime := 9, mode := 493, readable := true }

/-- Replica fixture for the C4 witness: the file `a` already present with
identical content but different metadata. -/
def replSame : FS := { files := [([ "a" ], fdPlain2)], dirs := [[]] }

/-! ### Association-list basics -/

theorem lookFD_eq_none_iff {l : List (Path × FileData)} {p : Path} :
    lookFD l p = none ↔ p ∉ l.map Prod.fst := by
  induction l with
  | nil => simp [lookFD]
  | cons a l ih =>
    by_cases h : a.1 = p
    · subst h
      rw [lookFD, if_pos rfl]
      constructor
      · intro h2
        exact absurd h2 (Option.some_ne_none _)
      · intro h2
        exact absurd (List.mem_map_of_mem Prod.fst (List.mem_cons_self a l)) h2
    · rw [lookFD, if_neg h, ih, List.map_cons]
      constructor
      · intro h2 hmem
        rcases List.mem_cons.mp hmem with he | hm
        · exact h he.symm
        · exact h2 hm
      · intro h2 hm
        exact h2 (List.mem_cons_of_mem _ hm)

theorem lookFD_mem {l : List (Path × FileData)} {p : Path} {fd : FileData} :
    lookFD l p = some fd → (p, fd) ∈ l := by
  induction l with
  | nil => simp [lookFD]
  | cons a l ih =>
    by_cases h : a.1 = p
    · subst h
      simp only [lookFD, if_pos rfl]
      intro h2
      cases h2
      exact List.mem_cons_self _ _
    · intro h2
      rw [lookFD, if_neg h] at h2
      exact List.mem_cons_of_mem _ (ih h2)

theorem lookFD_isSome_iff {l : List (Path × FileData)} {p : Path} :
    (lookFD l p).isSome = true ↔ p ∈ l.map Prod.fst := by
  cases hl : lookFD l p with
  | none =>
    simp only [Option.isSome_none]
    constructor
    · intro h
      exact absurd h (by simp)
    · intro h
      exact absurd h (lookFD_eq_none_iff.mp hl)
  | some fd =>
    simp only [Option.isSome_some, true_iff]
    exact List.mem_map_of_mem Prod.fst (lookFD_mem hl)

theorem lookFD_of_mem_nodup {l : List (Path × FileData)} {p : Path} {fd : FileData}
    (hnd : (l.map Prod.fst).Nodup) (hmem : (p, fd) ∈ l) : lookFD l p = some fd := by
  induction l with
  | nil => simp at hmem
  | cons a l ih =>
    simp only [List.map_cons, List.nodup_cons] at hnd
    rcases List.mem_cons.mp hmem with h | h
    · subst h
      simp [lookFD]
    · have hne : a.1 ≠ p := by
        intro he
        exact hnd.1 (he ▸ List.mem_map_of_mem Prod.fst h)
      rw [lookFD, if_neg hne]
      exact ih hnd.2 h

theorem lookFD_filter {l : List (Path × FileData)} {f : Path → Bool} {q : Path} :
    lookFD (l.filter fun pr => f pr.1) q = if f q then lookFD l q else none := by
  induction l with
  | nil => simp [lookFD]
  | cons a l ih =>
    by_cases ha : a.1 = q
    · subst ha
      by_cases hfa : f a.1
      · simp [List.filter_cons, hfa, lookFD]
      · simp only [Bool.not_eq_true] at hfa
        simp [List.filter_cons, hfa, ih]
    · by_cases hfa : f a.1
      · simp [List.filter_cons, hfa, lookFD, ha, ih]
      · simp only [Bool.not_eq_true] at hfa
        simp [List.filter_cons, hfa, ih, lookFD, ha]

theorem lookFD_replace_ne {l : List (Path × FileData)} {p q : Path} {fd : FileData}
    (hq : q ≠ p) :
    lookFD (l.map fun pr => if pr.1 = p then (p, fd) else pr) q = lookFD l q := by
  induction l with
  | nil => simp [lookFD]
  | cons a l ih =>
    by_cases ha : a.1 = p
    · have h1 : p ≠ q := fun he => hq he.symm
      have h2 : a.1 ≠ q := fun he => hq (he.symm.trans ha)
      simp only [List.map_cons, if_pos ha, lookFD, if_neg h1, if_neg h2]
      exact ih
    · simp only [List.map_cons, if_neg ha, lookFD]
      by_cases hqa : a.1 = q
      · simp [hqa]
      · simp only [if_neg hqa]
        exact ih

theorem lookFD_replace_self {l : List (Path × FileData)} {p : Path} {fd : FileData}
    (h : (lookFD l p).isSome = true) :
    lookFD (l.map fun pr => if pr.1 = p then (p, fd) else pr) p = some fd := by
  induction l with
  | nil => simp [lookFD] at h
  | cons a l ih =>
    by_cases ha : a.1 = p
    · simp [List.map_cons, ha, lookFD]
    · rw [lookFD, if_neg ha] at h
      simp only [List.map_cons, if_neg ha, lookFD, if_neg ha]
      exact ih h

/-! ### Path basics -/

theorem prefix_dropLast_of_proper {p q : Path} (h : p <+: q) (hne : p ≠ q) :
    p <+: q.dropLast := by
  have hlt : p.length < q.length := by
    rcases Nat.lt_or_ge p.length q.length with h1 | h1
    · exact h1
    · exact absurd (List.IsPrefix.eq_of_length h (Nat.le_antisymm h.length_le h1)) hne
  have hp : p = q.take p.length := List.prefix_iff_eq_take.mp h
  have : p = q.dropLast.take p.length := by
    rw [List.dropLast_eq_take, List.take_take]
    rw [min_eq_left (by omega)]
    exact hp
  rw [this]
  exact List.take_prefix _ _

theorem prefix_concat_iff {p d : Path} {f : Seg} :
    p <+: d ++ [f] ↔ p <+: d ∨ p = d ++ [f] := by
  constructor
  · intro h
    by_cases he : p = d ++ [f]
    · exact Or.inr he
    · exact Or.inl (by
        have := prefix_dropLast_of_proper h he
        rwa [List.dropLast_concat] at this)
  · rintro (h | rfl)
    · exact h.trans (List.prefix_append _ _)
    · exact List.prefix_refl _

/-! ### Well-formed trees -/


theorem wfb_iff {fs : FS} : fs.wfb = true ↔ WF fs := by
  constructor
  · intro h
    simp only [FS.wfb, Bool.and_eq_true, List.all_eq_true, decide_eq_true_eq,
      Bool.or_eq_true, Bool.not_eq_true', List.isEmpty_iff] at h
    refine ⟨h.1.1.1.1, ?_, ?_, ?_, h.1.2, h.2⟩
    · intro pr hpr
      obtain ⟨⟨h1, h2⟩, _⟩ := h.1.1.1.2 pr hpr
      exact ⟨by simpa using h1, h2⟩
    · intro pr hpr
      exact (h.1.1.1.2 pr hpr).2
    · intro d hd hne
      rcases h.1.1.2 d hd with h1 | h1
      · exact absurd h1 hne
      · exact h1
  · intro h
    simp only [FS.wfb, Bool.and_eq_true, List.all_eq_true, decide_eq_true_eq,
      Bool.or_eq_true, Bool.not_eq_true', List.isEmpty_iff]
    refine ⟨⟨⟨⟨h.root, ?_⟩, ?_⟩, h.keysNodup⟩, h.dirsNodup⟩
    · intro pr hpr
      exact ⟨⟨by simpa using (h.fileParent pr hpr).1, (h.fileParent pr hpr).2⟩,
        h.fileNotDir pr hpr⟩
    · intro d hd
      by_cases he : d = []
      · exact Or.inl he
      · exact Or.inr (h.dirParent d hd he)

theorem isDir_iff_mem {fs : FS} {p : Path} : fs.isDir p = true ↔ p ∈ fs.dirs := by
  simp [FS.isDir]

theorem isFile_iff_mem_keys {fs : FS} {p : Path} :
    fs.isFile p = true ↔ p ∈ fs.files.map Prod.fst := by
  simp only [FS.isFile, FS.lookupFile]
  exact lookFD_isSome_iff

theorem WF.lookup_eq_none_of_isDir {fs : FS} (hwf : WF fs) {p : Path}
    (h : fs.isDir p = true) : fs.lookupFile p = none := by
  rw [FS.lookupFile, lookFD_eq_none_iff]
  intro hmem
  obtain ⟨pr, hpr, hpr1⟩ := List.mem_map.mp hmem
  have := hwf.fileNotDir pr hpr
  rw [hpr1, h] at this
  cases this

theorem WF.isFile_eq_false_of_isDir {fs : FS} (hwf : WF fs) {p : Path}
    (h : fs.isDir p = true) : fs.isFile p = false := by
  simp [FS.isFile, hwf.lookup_eq_none_of_isDir h]

theorem WF.isDir_eq_false_of_isFile {fs : FS} (hwf : WF fs) {p : Path}
    (h : fs.isFile p = true) : fs.isDir p = false := by
  by_contra hd
  rw [Bool.not_eq_false] at hd
  rw [hwf.isFile_eq_false_of_isDir hd] at h
  cases h

/-- In a well-formed tree, every proper prefix of an existing path is a
directory. -/
theorem WF.dir_of_proper_ancestor {fs : FS} (hwf : WF fs) {q p : Path}
    (hex : fs.pathExists q = true) (hpre : p <+: q) (hne : p ≠ q) :
    fs.isDir p = true := by
  obtain ⟨n, hn⟩ : ∃ n, q.length ≤ n := ⟨q.length, Nat.le_refl _⟩
  induction n generalizing q with
  | zero =>
    rw [Nat.le_zero, List.length_eq_zero] at hn
    subst hn
    rw [List.prefix_nil] at hpre
    exact absurd hpre hne
  | succ n ih =>
    have hq : q ≠ [] := by
      rintro rfl
      rw [List.prefix_nil] at hpre
      exact hne hpre
    have hparent : fs.isDir (parent q) = true := by
      rw [FS.pathExists, Bool.or_eq_true] at hex
      rcases hex with hf | hd
      · rcases Option.isSome_iff_exists.mp hf with ⟨fd, hfd⟩
        exact (hwf.fileParent (q, fd) (lookFD_mem hfd)).2
      · exact hwf.dirParent q (isDir_iff_mem.mp hd) hq
    by_cases hpe : p = parent q
    · rw [hpe]; exact hparent
    · have hpre' : p <+: parent q := prefix_dropLast_of_proper hpre hne
      refine ih (q := parent q) ?_ hpre' hpe ?_
      · rw [FS.pathExists, hparent]; simp
      · have : q.length ≤ n + 1 := hn
        have h2 : (parent q).length = q.length - 1 := by
          simp [parent]
        omega

theorem WF.pathExists_of_ancestor {fs : FS} (hwf : WF fs) {q p : Path}
    (hex : fs.pathExists q = true) (hpre : p <+: q) : fs.pathExists p = true := by
  by_cases hne : p = q
  · rwa [hne]
  · have := hwf.dir_of_proper_ancestor hex hpre hne
    rw [FS.pathExists, this]
    simp

/-! ### Effect of the filesystem operations -/

@[simp] theorem lookupFile_makedirs {fs : FS} {p q : Path} :
    (fs.makedirs p).lookupFile q = fs.lookupFile q := rfl

@[simp] theorem isFile_makedirs {fs : FS} {p q : Path} :
    (fs.makedirs p).isFile q = fs.isFile q := rfl

theorem isDir_makedirs {fs : FS} {p q : Path} :
    (fs.makedirs p).isDir q = true ↔ fs.isDir q = true ∨ q <+: p := by
  constructor
  · intro h
    rw [isDir_iff_mem] at h
    rcases List.mem_append.mp h with h1 | h1
    · exact Or.inl (isDir_iff_mem.mpr h1)
    · exact Or.inr ((List.mem_inits _ _).mp (List.mem_filter.mp h1).1)
  · intro h
    rw [isDir_iff_mem]
    rcases h with h | h
    · exact List.mem_append_left _ (isDir_iff_mem.mp h)
    · by_cases hd : fs.isDir q = true
      · exact List.mem_append_left _ (isDir_iff_mem.mp hd)
      · refine List.mem_append_right _ (List.mem_filter.mpr ⟨(List.mem_inits _ _).mpr h, ?_⟩)
        simp [hd]

theorem dirs_setFile {fs : FS} {p : Path} {fd : FileData} :
    (fs.setFile p fd).dirs = fs.dirs := by
  rw [FS.setFile]
  split <;> rfl

@[simp] theorem isDir_setFile {fs : FS} {p q : Path} {fd : FileData} :
    (fs.setFile p fd).isDir q = fs.isDir q := by
  simp [FS.isDir, dirs_setFile]

theorem lookupFile_setFile_self {fs : FS} {p : Path} {fd : FileData} :
    (fs.setFile p fd).lookupFile p = some fd := by
  rw [FS.setFile]
  by_cases h : fs.isFile p
  · rw [if_pos h]
    exact lookFD_replace_self h
  · rw [if_neg h]
    simp [FS.lookupFile, lookFD]

theorem lookupFile_setFile_ne {fs : FS} {p q : Path} {fd : FileData} (h : q ≠ p) :
    (fs.setFile p fd).lookupFile q = fs.lookupFile q := by
  rw [FS.setFile]
  by_cases hf : fs.isFile p
  · rw [if_pos hf]
    exact lookFD_replace_ne h
  · rw [if_neg hf]
    have hne : ¬ p = q := fun he => h he.symm
    simp only [FS.lookupFile, lookFD, if_neg hne]

theorem bnot_eq_true_iff {b : Bool} : (!b) = true ↔ b = false := by
  cases b <;> simp

theorem isPrefixOf_eq_false_iff {p q : Path} : p.isPrefixOf q = false ↔ ¬ p <+: q := by
  constructor
  · intro h hpre
    rw [ List.isPrefixOf_iff_prefix.mpr hpre] at h
    cases h
  · intro h
    by_contra hb
    rw [Bool.not_eq_false] at hb
    exact h ( List.isPrefixOf_iff_prefix.mp hb)

theorem removeFile_spec {fs fs' : FS} {p : Path} (h : fs.removeFile p = some fs') :
    (∀ q, fs'.lookupFile q = if q = p then none else fs.lookupFile q) ∧
    fs'.dirs = fs.dirs := by
  rw [FS.removeFile] at h
  by_cases hf : fs.isFile p
  · rw [if_pos hf] at h
    cases h
    refine ⟨?_, rfl⟩
    intro q
    have base := lookFD_filter (l := fs.files) (f := fun r => !(decide (r = p))) (q := q)
    by_cases hq : q = p
    · subst hq
      simpa [FS.lookupFile] using base
    · simpa [FS.lookupFile, hq] using base
  · rw [if_neg hf] at h
    cases h

theorem rmtree_spec {fs fs' : FS} {p : Path} (h : fs.rmtree p = some fs') :
    (∀ q, fs'.lookupFile q = if p <+: q then none else fs.lookupFile q) ∧
    (∀ q, fs'.isDir q = true ↔ fs.isDir q = true ∧ ¬ p <+: q) := by
  rw [FS.rmtree] at h
  by_cases hd : fs.isDir p
  · rw [if_pos hd] at h
    cases h
    constructor
    · intro q
      have base := lookFD_filter (l := fs.files) (f := fun r => !(p.isPrefixOf r)) (q := q)
      by_cases hq : p <+: q
      · have hb : p.isPrefixOf q = true := List.isPrefixOf_iff_prefix.mpr hq
        rw [if_pos hq]
        simpa [FS.lookupFile, hb] using base
      · have hb : p.isPrefixOf q = false := isPrefixOf_eq_false_iff.mpr hq
        rw [if_neg hq]
        simpa [FS.lookupFile, hb] using base
    · intro q
      constructor
      · intro hmem
        rw [isDir_iff_mem] at hmem
        have h1 := List.mem_filter.mp hmem
        refine ⟨isDir_iff_mem.mpr h1.1, ?_⟩
        have h2 := h1.2
        rw [bnot_eq_true_iff, isPrefixOf_eq_false_iff] at h2
        exact h2
      · rintro ⟨h1, h2⟩
        rw [isDir_iff_mem]
        refine List.mem_filter.mpr ⟨isDir_iff_mem.mp h1, ?_⟩
        rw [bnot_eq_true_iff, isPrefixOf_eq_false_iff]
        exact h2
  · rw [if_neg hd] at h
    cases h

/-- `rmtree` succeeds exactly on a directory. -/
theorem rmtree_isSome_iff {fs : FS} {p : Path} :
    (fs.rmtree p).isSome = true ↔ fs.isDir p = true := by
  rw [FS.rmtree]
  by_cases hd : fs.isDir p <;> simp [hd]

theorem removeFile_isSome_iff {fs : FS} {p : Path} :
    (fs.removeFile p).isSome = true ↔ fs.isFile p = true := by
  rw [FS.removeFile]
  by_cases hf : fs.isFile p <;> simp [hf]

/-! ### Digest congruence -/

theorem readFile_congr {fs₁ fs₂ : FS} {p : Path}
    (h : fs₁.lookupFile p = fs₂.lookupFile p) : fs₁.readFile p = fs₂.readFile p := by
  rw [FS.readFile, FS.readFile, h]

theorem calculate_sha256_congr {dig : List Nat → Nat} {fs₁ fs₂ : FS} {p : Path}
    (h : fs₁.lookupFile p = fs₂.lookupFile p) :
    calculate_sha256 dig fs₁ p = calculate_sha256 dig fs₂ p := by
  rw [calculate_sha256, calculate_sha256, readFile_congr h]

theorem readFile_eq_none_of_not_isFile {fs : FS} {p : Path} (h : fs.isFile p = false) :
    fs.readFile p = none := by
  cases hl : fs.lookupFile p with
  | none => simp [FS.readFile, hl]
  | some fd =>
    rw [FS.isFile, hl] at h
    simp at h

theorem calculate_sha256_eq_none_of_not_isFile {dig : List Nat → Nat} {fs : FS} {p : Path}
    (h : fs.isFile p = false) : calculate_sha256 dig fs p = none := by
  rw [calculate_sha256, readFile_eq_none_of_not_isFile h]

theorem calculate_sha256_isSome {dig : List Nat → Nat} {fs : FS} {p : Path}
    (h : (calculate_sha256 dig fs p).isSome = true) : fs.isFile p = true := by
  by_contra hf
  rw [Bool.not_eq_true] at hf
  rw [calculate_sha256_eq_none_of_not_isFile hf] at h
  cases h

/-! ### Well-formedness preservation -/

theorem nodup_inits {l : Path} : l.inits.Nodup := by
  induction l with
  | nil => simp
  | cons a l ih =>
    rw [List.inits_cons]
    refine List.Nodup.cons ?_ (ih.map ?_)
    · intro hmem
      obtain ⟨t, _, ht⟩ := List.mem_map.mp hmem
      cases ht
    · intro x y hxy
      cases hxy
      rfl

theorem WF.makedirs {fs : FS} (hwf : WF fs) {p : Path}
    (hcan : fs.canMakedirs p = true) : WF (fs.makedirs p) := by
  rw [FS.canMakedirs, bnot_eq_true_iff, List.any_eq_false] at hcan
  have hfile : ∀ q, q <+: p → fs.isFile q = false := by
    intro q hq
    simpa using hcan q ((List.mem_inits _ _).mpr hq)
  constructor
  · rw [isDir_makedirs]
    exact Or.inl hwf.root
  · intro pr hpr
    refine ⟨(hwf.fileParent pr hpr).1, ?_⟩
    rw [isDir_makedirs]
    exact Or.inl (hwf.fileParent pr hpr).2
  · intro pr hpr
    by_contra hc
    rw [Bool.not_eq_false, isDir_makedirs] at hc
    rcases hc with hc | hc
    · rw [hwf.fileNotDir pr hpr] at hc
      cases hc
    · have h1 : fs.isFile pr.1 = true := by
        rw [isFile_iff_mem_keys]
        exact List.mem_map_of_mem Prod.fst hpr
      rw [hfile pr.1 hc] at h1
      cases h1
  · intro d hd hne
    have hdir : (fs.makedirs p).isDir d = true := isDir_iff_mem.mpr hd
    rw [isDir_makedirs] at hdir
    rw [isDir_makedirs]
    rcases hdir with h1 | h1
    · exact Or.inl (hwf.dirParent d (isDir_iff_mem.mp h1) hne)
    · exact Or.inr (( List.dropLast_prefix d).trans h1)
  · exact hwf.keysNodup
  · refine List.Nodup.append hwf.dirsNodup (List.Nodup.filter _ nodup_inits) ?_
    intro q hq1 hq2
    rw [List.mem_filter] at hq2
    have h1 : fs.isDir q = false := by
      have h2 := hq2.2
      rwa [bnot_eq_true_iff] at h2
    have h2 : fs.isDir q = true := isDir_iff_mem.mpr hq1
    rw [h1] at h2
    cases h2

theorem mem_setFile_files {fs : FS} {p : Path} {fd : FileData} {pr : Path × FileData}
    (h : pr ∈ (fs.setFile p fd).files) : pr = (p, fd) ∨ pr ∈ fs.files := by
  rw [FS.setFile] at h
  by_cases hf : fs.isFile p
  · rw [if_pos hf] at h
    obtain ⟨pr0, hpr0, hmap⟩ := List.mem_map.mp h
    by_cases he : pr0.1 = p
    · rw [if_pos he] at hmap
      exact Or.inl hmap.symm
    · rw [if_neg he] at hmap
      exact Or.inr (hmap ▸ hpr0)
  · rw [if_neg hf] at h
    rcases List.mem_cons.mp h with h1 | h1
    · exact Or.inl h1
    · exact Or.inr h1

theorem keys_setFile_of_isFile {fs : FS} {p : Path} {fd : FileData}
    (hf : fs.isFile p = true) :
    (fs.setFile p fd).files.map Prod.fst = fs.files.map Prod.fst := by
  rw [FS.setFile, if_pos hf, List.map_map]
  congr 1
  funext pr
  by_cases he : pr.1 = p
  · simp [he]
  · simp [he]

theorem WF.setFile {fs : FS} (hwf : WF fs) {p : Path} {fd : FileData}
    (hp : p ≠ []) (hparent : fs.isDir (parent p) = true)
    (hnotdir : fs.isDir p = false) : WF (fs.setFile p fd) := by
  have hdirs : (fs.setFile p fd).dirs = fs.dirs := dirs_setFile
  have hisdir : ∀ q, (fs.setFile p fd).isDir q = fs.isDir q := fun q => isDir_setFile
  constructor
  · rw [hisdir]
    exact hwf.root
  · intro pr hpr
    rcases mem_setFile_files hpr with h1 | h1
    · subst h1
      exact ⟨hp, by rw [hisdir]; exact hparent⟩
    · exact ⟨(hwf.fileParent pr h1).1, by rw [hisdir]; exact (hwf.fileParent pr h1).2⟩
  · intro pr hpr
    rcases mem_setFile_files hpr with h1 | h1
    · subst h1
      rw [hisdir]
      exact hnotdir
    · rw [hisdir]
      exact hwf.fileNotDir pr h1
  · intro d hd hne
    rw [hdirs] at hd
    rw [hisdir]
    exact hwf.dirParent d hd hne
  · by_cases hf : fs.isFile p
    · rw [keys_setFile_of_isFile hf]
      exact hwf.keysNodup
    · rw [FS.setFile, if_neg hf, List.map_cons]
      refine List.Nodup.cons ?_ hwf.keysNodup
      rw [← isFile_iff_mem_keys]
      simp [hf]
  · rw [hdirs]
    exact hwf.dirsNodup

theorem WF.removeFile {fs fs' : FS} (hwf : WF fs) {p : Path}
    (h : fs.removeFile p = some fs') : WF fs' := by
  rw [FS.removeFile] at h
  by_cases hf : fs.isFile p
  · rw [if_pos hf] at h
    cases h
    constructor
    · exact hwf.root
    · intro pr hpr
      exact hwf.fileParent pr (List.mem_of_mem_filter hpr)
    · intro pr hpr
      exact hwf.fileNotDir pr (List.mem_of_mem_filter hpr)
    · exact hwf.dirParent
    · exact hwf.keysNodup.sublist (List.Sublist.map _ (List.filter_sublist _))
    · exact hwf.dirsNodup
  · rw [if_neg hf] at h
    cases h

theorem WF.rmtree {fs fs' : FS} (hwf : WF fs) {p : Path} (hp : p ≠ [])
    (h : fs.rmtree p = some fs') : WF fs' := by
  rw [FS.rmtree] at h
  by_cases hd : fs.isDir p
  · rw [if_pos hd] at h
    cases h
    constructor
    · rw [isDir_iff_mem]
      refine List.mem_filter.mpr ⟨isDir_iff_mem.mp hwf.root, ?_⟩
      rw [bnot_eq_true_iff, isPrefixOf_eq_false_iff]
      intro hpre
      exact hp (List.prefix_nil.mp hpre)
    · intro pr hpr
      have hmem := List.mem_of_mem_filter hpr
      have hkeep : ¬ p <+: pr.1 := by
        have h2 := (List.mem_filter.mp hpr).2
        rwa [bnot_eq_true_iff, isPrefixOf_eq_false_iff] at h2
      refine ⟨(hwf.fileParent pr hmem).1, ?_⟩
      rw [isDir_iff_mem]
      refine List.mem_filter.mpr ⟨isDir_iff_mem.mp (hwf.fileParent pr hmem).2, ?_⟩
      rw [bnot_eq_true_iff, isPrefixOf_eq_false_iff]
      intro hpre
      exact hkeep (hpre.trans ( List.dropLast_prefix pr.1))
    · intro pr hpr
      have hmem := List.mem_of_mem_filter hpr
      by_contra hc
      rw [Bool.not_eq_false, isDir_iff_mem] at hc
      have h2 := List.mem_of_mem_filter hc
      rw [← isDir_iff_mem, hwf.fileNotDir pr hmem] at h2
      cases h2
    · intro d hd2 hne
      have hmem := List.mem_of_mem_filter hd2
      have hkeep : ¬ p <+: d := by
        have h2 := (List.mem_filter.mp hd2).2
        rwa [bnot_eq_true_iff, isPrefixOf_eq_false_iff] at h2
      rw [isDir_iff_mem]
      refine List.mem_filter.mpr ⟨isDir_iff_mem.mp (hwf.dirParent d hmem hne), ?_⟩
      rw [bnot_eq_true_iff, isPrefixOf_eq_false_iff]
      intro hpre
      exact hkeep (hpre.trans ( List.dropLast_prefix d))
    · exact hwf.keysNodup.sublist (List.Sublist.map _ (List.filter_sublist _))
    · exact hwf.dirsNodup.sublist (List.filter_sublist _)
  · rw [if_neg hd] at h
    cases h

/-! ### The chunked read reconstructs the byte stream -/

theorem chunksFuel_foldl :
    ∀ (fuel : Nat) (l acc : List Nat), l.length ≤ fuel →
      (chunksFuel fuel l).foldl (fun acc c => acc ++ c) acc = acc ++ l := by
  intro fuel
  induction fuel with
  | zero =>
    intro l acc h
    have hl : l = [] := List.length_eq_zero.mp (Nat.le_zero.mp h)
    subst hl
    simp [chunksFuel]
  | succ n ih =>
    intro l acc h
    cases l with
    | nil => simp [chunksFuel]
    | cons a t =>
      rw [chunksFuel, List.foldl_cons, ih _ _ ?_]
      · rw [List.append_assoc, List.take_append_drop]
      · simp only [List.length_drop, List.length_cons] at h ⊢
        omega

theorem shaFeed_eq (l : List Nat) : shaFeed l = l := by
  rw [shaFeed, chunks]
  simpa using chunksFuel_foldl l.length l [] (Nat.le_refl _)

theorem hexDigits_length (w n : Nat) : (hexDigits w n).length = w := by
  simp [hexDigits]

/-- `calculate_sha256` in closed form: the digest of the whole byte stream. -/
theorem calculate_sha256_eq (dig : List Nat → Nat) (fs : FS) (p : Path) :
    calculate_sha256 dig fs p = (fs.readFile p).map fun c => hexDigits 64 (dig c) := by
  rw [calculate_sha256]
  cases fs.readFile p with
  | none => rfl
  | some c => simp [shaFeed_eq]

/-! ### Event-log and counter bookkeeping -/

theorem countAttempts_append {l₁ l₂ : List Ev} :
    countAttempts (l₁ ++ l₂) = countAttempts l₁ + countAttempts l₂ := by
  simp [countAttempts, List.filter_append]


theorem stepShape_id {st : St} : StepShape st st :=
  ⟨[], by simp, by simp [countAttempts]⟩

theorem StepShape.comp {s1 s2 s3 : St} (h1 : StepShape s1 s2) (h2 : StepShape s2 s3) :
    StepShape s1 s3 := by
  obtain ⟨l1, he1, hc1⟩ := h1
  obtain ⟨l2, he2, hc2⟩ := h2
  refine ⟨l1 ++ l2, by rw [he2, he1, List.append_assoc], ?_⟩
  rw [hc2, hc1, countAttempts_append]
  omega

theorem countAttempts_one_of_attempt {e : Ev} (h : e.isAttempt = true) :
    countAttempts [e] = 1 := by
  simp [countAttempts, h]

theorem copyAttempt_shape {source : FS} {p : Path} {f : Seg} {st : St} :
    StepShape st (copyAttempt source p f st) := by
  cases hs : source.lookupFile p with
  | none =>
    refine ⟨[Ev.copyFail p], ?_, ?_⟩ <;>
      simp [copyAttempt, hs, countAttempts, Ev.isAttempt]
  | some fd =>
    cases hc : FS.copy2 st.fs p f fd with
    | some fs2 =>
      refine ⟨[Ev.copied p], ?_, ?_⟩ <;>
        simp [copyAttempt, hs, hc, countAttempts, Ev.isAttempt]
    | none =>
      refine ⟨[Ev.copyFail p], ?_, ?_⟩ <;>
        simp [copyAttempt, hs, hc, countAttempts, Ev.isAttempt]

theorem countAttempts_digestFails {b1 b2 : Bool} {p : Path} :
    countAttempts ((if b1 then [Ev.digestFail p] else []) ++
      (if b2 then [Ev.digestFail p] else [])) = 0 := by
  cases b1 <;> cases b2 <;> simp [countAttempts, Ev.isAttempt]

theorem fileStep_shape {dig : List Nat → Nat} {source : FS} {d : Path} {f : Seg} {st : St} :
    StepShape st (fileStep dig source d f st) := by
  simp only [fileStep]
  by_cases hex : st.fs.pathExists (d ++ [f]) = true
  · rw [if_pos hex]
    have hmid : StepShape st { st with evs := st.evs ++
        ((if (calculate_sha256 dig source (d ++ [f])).isNone then [Ev.digestFail (d ++ [f])] else []) ++
         (if (calculate_sha256 dig st.fs (d ++ [f])).isNone then [Ev.digestFail (d ++ [f])] else [])) } :=
      ⟨_, rfl, by rw [countAttempts_digestFails]; exact (Nat.add_zero st.count).symm⟩
    by_cases hne : calculate_sha256 dig source (d ++ [f]) ≠ calculate_sha256 dig st.fs (d ++ [f])
    · rw [if_pos hne]
      exact hmid.comp copyAttempt_shape
    · rw [if_neg hne]
      exact hmid
  · rw [if_neg hex]
    exact copyAttempt_shape

theorem dirStep_shape {st : St} {d : Path} : StepShape st (dirStep st d) := by
  simp only [dirStep]
  by_cases hex : st.fs.pathExists d = true
  · rw [if_pos hex]
    exact stepShape_id
  · rw [if_neg hex]
    by_cases hcan : st.fs.canMakedirs d = true
    · rw [if_pos hcan]
      exact ⟨[Ev.createdDir d], rfl, by simp [countAttempts, Ev.isAttempt]⟩
    · rw [if_neg hcan]
      exact ⟨[Ev.createDirFail d], rfl, by simp [countAttempts, Ev.isAttempt]⟩

theorem foldl_shape {α : Type} {g : St → α → St} (hg : ∀ st f, StepShape st (g st f)) :
    ∀ (fl : List α) (st : St), StepShape st (fl.foldl g st) := by
  intro fl
  induction fl with
  | nil => intro st; exact stepShape_id
  | cons f fl ih =>
    intro st
    rw [List.foldl_cons]
    exact (hg st f).comp (ih (g st f))

theorem addDirStep_shape {dig : List Nat → Nat} {source : FS} {st : St} {d : Path}
    {files : List Seg} : StepShape st (addDirStep dig source st d files) := by
  rw [addDirStep]
  exact dirStep_shape.comp (foldl_shape (fun st f => fileStep_shape) files (dirStep st d))

theorem removeFileStep_shape {source : FS} {d : Path} {f : Seg} {st : St} :
    StepShape st (removeFileStep source d f st) := by
  simp only [removeFileStep]
  by_cases hex : source.pathExists (d ++ [f]) = true
  · rw [if_pos hex]
    exact stepShape_id
  · rw [if_neg hex]
    cases hr : FS.removeFile st.fs (d ++ [f]) with
    | some fs2 =>
      refine ⟨[Ev.removedFile (d ++ [f])], ?_, ?_⟩ <;>
        simp [hr, countAttempts, Ev.isAttempt]
    | none =>
      refine ⟨[Ev.removeFileFail (d ++ [f])], ?_, ?_⟩ <;>
        simp [hr, countAttempts, Ev.isAttempt]

theorem removeDirStep_shape {source : FS} {st : St} {d : Path} {files : List Seg} :
    StepShape st (removeDirStep source st d files) := by
  rw [removeDirStep]
  set st1 := files.foldl (fun st f => removeFileStep source d f st) st with hst1
  have h1 : StepShape st st1 := foldl_shape (fun st f => removeFileStep_shape) files st
  by_cases hex : source.pathExists d = true
  · rw [if_pos hex]
    exact h1
  · rw [if_neg hex]
    refine h1.comp ?_
    cases hr : FS.rmtree st1.fs d with
    | some fs2 =>
      refine ⟨[Ev.removedDir d], ?_, ?_⟩ <;>
        simp [hr, countAttempts, Ev.isAttempt]
    | none =>
      refine ⟨[Ev.removeDirFail d], ?_, ?_⟩ <;>
        simp [hr, countAttempts, Ev.isAttempt]

theorem runAdd_shape {dig : List Nat → Nat} {source : FS} :
    ∀ (L : List WEv) (st : St), StepShape st (runAdd dig source L st).st := by
  intro L
  induction L with
  | nil => intro st; exact stepShape_id
  | cons e rest ih =>
    intro st
    cases e with
    | err =>
      exact ⟨[Ev.fatalError], rfl, by simp [runAdd, PassOut.st, countAttempts, Ev.isAttempt]⟩
    | visit d files =>
      rw [runAdd]
      exact addDirStep_shape.comp (ih (addDirStep dig source st d files))

theorem runRemove_shape {source : FS} :
    ∀ (L : List WEv) (st : St), StepShape st (runRemove source L st).st := by
  intro L
  induction L with
  | nil => intro st; exact stepShape_id
  | cons e rest ih =>
    intro st
    cases e with
    | err =>
      exact ⟨[Ev.fatalError], rfl, by simp [runRemove, PassOut.st, countAttempts, Ev.isAttempt]⟩
    | visit d files =>
      rw [runRemove]
      exact removeDirStep_shape.comp (ih (removeDirStep source st d files))

theorem sync_folders_shape {dig : List Nat → Nat} {source : FS} {st : St} :
    StepShape st (sync_folders dig source st).st := by
  rw [sync_folders]
  cases ha : add_files_and_directories dig source st with
  | fatal s c =>
    have := @runAdd_shape dig source source.addWalk st
    rw [add_files_and_directories] at ha
    rw [ha] at this
    exact this
  | ok s =>
    have h1 := @runAdd_shape dig source source.addWalk st
    rw [add_files_and_directories] at ha
    rw [ha] at h1
    exact h1.comp (runRemove_shape _ s)

/-! ### Pass completion and failure propagation -/

theorem runAdd_eq_ok {dig : List Nat → Nat} {source : FS} :
    ∀ {L : List WEv}, WEv.err ∉ L →
      ∀ st, runAdd dig source L st = .ok (addFold dig source L st) := by
  intro L
  induction L with
  | nil => intro _ st; rfl
  | cons e rest ih =>
    intro hmem st
    cases e with
    | err => exact absurd (List.mem_cons_self _ _) hmem
    | visit d files =>
      rw [runAdd, addFold, List.foldl_cons]
      exact ih (fun h => hmem (List.mem_cons_of_mem _ h)) _

theorem runRemove_eq_ok {source : FS} :
    ∀ {L : List WEv}, WEv.err ∉ L →
      ∀ st, runRemove source L st = .ok (removeFold source L st) := by
  intro L
  induction L with
  | nil => intro _ st; rfl
  | cons e rest ih =>
    intro hmem st
    cases e with
    | err => exact absurd (List.mem_cons_self _ _) hmem
    | visit d files =>
      rw [runRemove, removeFold, List.foldl_cons]
      exact ih (fun h => hmem (List.mem_cons_of_mem _ h)) _

theorem addFold_append {dig : List Nat → Nat} {source : FS} (l₁ l₂ : List WEv) (st : St) :
    addFold dig source (l₁ ++ l₂) st = addFold dig source l₂ (addFold dig source l₁ st) := by
  simp [addFold, List.foldl_append]

theorem removeFold_append {source : FS} (l₁ l₂ : List WEv) (st : St) :
    removeFold source (l₁ ++ l₂) st = removeFold source l₂ (removeFold source l₁ st) := by
  simp [removeFold, List.foldl_append]

theorem runAdd_err_fatal {dig : List Nat → Nat} {source : FS} :
    ∀ {L : List WEv}, WEv.err ∈ L →
      ∀ st, ∃ st', runAdd dig source L st = .fatal st' 1 ∧ Ev.fatalError ∈ st'.evs := by
  intro L
  induction L with
  | nil => intro h; cases h
  | cons e rest ih =>
    intro hmem st
    cases e with
    | err =>
      refine ⟨_, rfl, ?_⟩
      exact List.mem_append_right _ (List.mem_cons_self _ _)
    | visit d files =>
      rw [runAdd]
      have hr : WEv.err ∈ rest := by
        rcases List.mem_cons.mp hmem with h | h
        · cases h
        · exact h
      exact ih hr _

theorem runRemove_err_fatal {source : FS} :
    ∀ {L : List WEv}, WEv.err ∈ L →
      ∀ st, ∃ st', runRemove source L st = .fatal st' 1 ∧ Ev.fatalError ∈ st'.evs := by
  intro L
  induction L with
  | nil => intro h; cases h
  | cons e rest ih =>
    intro hmem st
    cases e with
    | err =>
      refine ⟨_, rfl, ?_⟩
      exact List.mem_append_right _ (List.mem_cons_self _ _)
    | visit d files =>
      rw [runRemove]
      have hr : WEv.err ∈ rest := by
        rcases List.mem_cons.mp hmem with h | h
        · cases h
        · exact h
      exact ih hr _

theorem addWalk_no_err {fs : FS} : WEv.err ∉ fs.addWalk := by
  intro h
  obtain ⟨d, _, hd⟩ := List.mem_map.mp h
  cases hd

theorem removeWalk_no_err {fs : FS} : WEv.err ∉ fs.removeWalk := by
  intro h
  obtain ⟨d, _, hd⟩ := List.mem_map.mp h
  cases hd

/-! ### Failure-freedom -/

theorem noFail_append {l₁ l₂ : List Ev} :
    noFail (l₁ ++ l₂) = (noFail l₁ && noFail l₂) := by
  simp [noFail, List.any_append]

theorem noFail_left {l₁ l₂ : List Ev} (h : noFail (l₁ ++ l₂) = true) : noFail l₁ = true := by
  rw [noFail_append, Bool.and_eq_true] at h
  exact h.1

theorem noFail_of_shape {s1 s2 : St} (h : StepShape s1 s2)
    (hnf : noFail s2.evs = true) : noFail s1.evs = true := by
  obtain ⟨l, he, _⟩ := h
  rw [he] at hnf
  exact noFail_left hnf

theorem not_mem_of_noFail {l : List Ev} (hnf : noFail l = true) {e : Ev}
    (hf : e.isFailure = true) : e ∉ l := by
  intro hmem
  rw [noFail, bnot_eq_true_iff, List.any_eq_false] at hnf
  have h2 := hnf e hmem
  rw [hf] at h2
  exact h2 rfl

/-- A state equal to itself with `evs ++ []`. -/
theorem st_evs_append_nil {st : St} : { st with evs := st.evs ++ [] } = st := by
  simp

/-! ### Per-step characterizations under failure-freedom -/

theorem copy2_spec {fs fs' : FS} {dst : Path} {fname : Seg} {fd : FileData}
    (h : fs.copy2 dst fname fd = some fs') :
    fd.readable = true ∧
    ((fs.isDir dst = false ∧ fs.isDir (parent dst) = true ∧ fs' = fs.setFile dst fd) ∨
     (fs.isDir dst = true ∧ fs.isDir (dst ++ [fname]) = false ∧
       fs' = fs.setFile (dst ++ [fname]) fd)) := by
  rw [FS.copy2] at h
  by_cases hr : fd.readable = false
  · rw [if_pos hr] at h
    cases h
  · rw [if_neg hr] at h
    rw [Bool.not_eq_false] at hr
    refine ⟨hr, ?_⟩
    by_cases hd : fs.isDir dst = true
    · rw [if_pos hd] at h
      by_cases hd2 : fs.isDir (dst ++ [fname]) = true
      · rw [if_pos hd2] at h
        cases h
      · rw [if_neg hd2] at h
        cases h
        exact Or.inr ⟨hd, by simpa using hd2, rfl⟩
    · rw [if_neg hd] at h
      by_cases hp : fs.isDir (parent dst) = true
      · rw [if_pos hp] at h
        cases h
        exact Or.inl ⟨by simpa using hd, hp, rfl⟩
      · rw [if_neg hp] at h
        cases h

theorem copyAttempt_success {source : FS} {p : Path} {f : Seg} {st : St}
    (hnf : noFail (copyAttempt source p f st).evs = true) :
    ∃ fd fs2, source.lookupFile p = some fd ∧ st.fs.copy2 p f fd = some fs2 ∧
      copyAttempt source p f st =
        { st with count := st.count + 1, fs := fs2, evs := st.evs ++ [Ev.copied p] } := by
  cases hs : source.lookupFile p with
  | none =>
    have he : (copyAttempt source p f st).evs = st.evs ++ [Ev.copyFail p] := by
      simp [copyAttempt, hs]
    rw [he] at hnf
    have := not_mem_of_noFail hnf (e := Ev.copyFail p) rfl
    exact absurd (List.mem_append_right _ (List.mem_cons_self _ _)) this
  | some fd =>
    cases hc : FS.copy2 st.fs p f fd with
    | none =>
      have he : (copyAttempt source p f st).evs = st.evs ++ [Ev.copyFail p] := by
        simp [copyAttempt, hs, hc]
      rw [he] at hnf
      have := not_mem_of_noFail hnf (e := Ev.copyFail p) rfl
      exact absurd (List.mem_append_right _ (List.mem_cons_self _ _)) this
    | some fs2 =>
      refine ⟨fd, fs2, rfl, hc, ?_⟩
      simp [copyAttempt, hs, hc]

theorem dirStep_characterize {st : St} {d : Path}
    (hnf : noFail (dirStep st d).evs = true) :
    (st.fs.pathExists d = true ∧ dirStep st d = st) ∨
    (st.fs.pathExists d = false ∧ st.fs.canMakedirs d = true ∧
      dirStep st d = { st with
        count := st.count + 1,
        fs := st.fs.makedirs d,
        evs := st.evs ++ [Ev.createdDir d] }) := by
  by_cases hex : st.fs.pathExists d = true
  · exact Or.inl ⟨hex, by simp [dirStep, hex]⟩
  · have hex' : st.fs.pathExists d = false := by simpa using hex
    by_cases hcan : st.fs.canMakedirs d = true
    · exact Or.inr ⟨hex', hcan, by simp [dirStep, hex', hcan]⟩
    · have he : (dirStep st d).evs = st.evs ++ [Ev.createDirFail d] := by
        simp [dirStep, hex', hcan]
      rw [he] at hnf
      have := not_mem_of_noFail hnf (e := Ev.createDirFail d) rfl
      exact absurd (List.mem_append_right _ (List.mem_cons_self _ _)) this

theorem fileStep_characterize {dig : List Nat → Nat} {source : FS} {d : Path} {f : Seg}
    {st : St} (hnf : noFail (fileStep dig source d f st).evs = true) :
    (st.fs.pathExists (d ++ [f]) = false ∧
      fileStep dig source d f st = copyAttempt source (d ++ [f]) f st) ∨
    (st.fs.pathExists (d ++ [f]) = true ∧
      (calculate_sha256 dig source (d ++ [f])).isSome = true ∧
      (calculate_sha256 dig st.fs (d ++ [f])).isSome = true ∧
      ((calculate_sha256 dig source (d ++ [f]) = calculate_sha256 dig st.fs (d ++ [f]) ∧
          fileStep dig source d f st = st) ∨
       (calculate_sha256 dig source (d ++ [f]) ≠ calculate_sha256 dig st.fs (d ++ [f]) ∧
          fileStep dig source d f st = copyAttempt source (d ++ [f]) f st))) := by
  by_cases hex : st.fs.pathExists (d ++ [f]) = true
  · right
    have hfs : fileStep dig source d f st =
        (if calculate_sha256 dig source (d ++ [f]) ≠ calculate_sha256 dig st.fs (d ++ [f]) then
          copyAttempt source (d ++ [f]) f
            { st with evs := st.evs ++
              ((if (calculate_sha256 dig source (d ++ [f])).isNone then [Ev.digestFail (d ++ [f])]
                else []) ++
               (if (calculate_sha256 dig st.fs (d ++ [f])).isNone then [Ev.digestFail (d ++ [f])]
                else [])) }
        else
          { st with evs := st.evs ++
            ((if (calculate_sha256 dig source (d ++ [f])).isNone then [Ev.digestFail (d ++ [f])]
              else []) ++
             (if (calculate_sha256 dig st.fs (d ++ [f])).isNone then [Ev.digestFail (d ++ [f])]
              else [])) }) := by
      simp only [fileStep]
      rw [if_pos hex]
    have hevssub : ∃ l, (fileStep dig source d f st).evs = st.evs ++
        ((if (calculate_sha256 dig source (d ++ [f])).isNone then [Ev.digestFail (d ++ [f])]
          else []) ++
         (if (calculate_sha256 dig st.fs (d ++ [f])).isNone then [Ev.digestFail (d ++ [f])]
          else [])) ++ l := by
      rw [hfs]
      by_cases hne : calculate_sha256 dig source (d ++ [f]) ≠ calculate_sha256 dig st.fs (d ++ [f])
      · rw [if_pos hne]
        obtain ⟨l, he, _⟩ := @copyAttempt_shape source (d ++ [f]) f
          { st with evs := st.evs ++
            ((if (calculate_sha256 dig source (d ++ [f])).isNone then [Ev.digestFail (d ++ [f])]
              else []) ++
             (if (calculate_sha256 dig st.fs (d ++ [f])).isNone then [Ev.digestFail (d ++ [f])]
              else [])) }
        exact ⟨l, by rw [he]⟩
      · rw [if_neg hne]
        exact ⟨[], by rw [List.append_nil]⟩
    have hds : (calculate_sha256 dig source (d ++ [f])).isSome = true := by
      cases hcs : calculate_sha256 dig source (d ++ [f]) with
      | some v => simp
      | none =>
        obtain ⟨l, he⟩ := hevssub
        rw [hcs] at he
        have hmem : Ev.digestFail (d ++ [f]) ∈ (fileStep dig source d f st).evs := by
          rw [he]
          apply List.mem_append_left
          apply List.mem_append_right
          apply List.mem_append_left
          simp
        exact absurd hmem (not_mem_of_noFail hnf rfl)
    have hdr : (calculate_sha256 dig st.fs (d ++ [f])).isSome = true := by
      cases hcs : calculate_sha256 dig st.fs (d ++ [f]) with
      | some v => simp
      | none =>
        obtain ⟨l, he⟩ := hevssub
        rw [hcs] at he
        have hmem : Ev.digestFail (d ++ [f]) ∈ (fileStep dig source d f st).evs := by
          rw [he]
          apply List.mem_append_left
          apply List.mem_append_right
          apply List.mem_append_right
          simp
        exact absurd hmem (not_mem_of_noFail hnf rfl)
    have hnone1 : (calculate_sha256 dig source (d ++ [f])).isNone = false := by
      cases hcs : calculate_sha256 dig source (d ++ [f]) with
      | none =>
        rw [hcs] at hds
        simp at hds
      | some v => rfl
    have hnone2 : (calculate_sha256 dig st.fs (d ++ [f])).isNone = false := by
      cases hcs : calculate_sha256 dig st.fs (d ++ [f]) with
      | none =>
        rw [hcs] at hdr
        simp at hdr
      | some v => rfl
    have hst1 : ({ st with evs := st.evs ++
        ((if (calculate_sha256 dig source (d ++ [f])).isNone then [Ev.digestFail (d ++ [f])]
          else []) ++
         (if (calculate_sha256 dig st.fs (d ++ [f])).isNone then [Ev.digestFail (d ++ [f])]
          else [])) } : St) = st := by
      rw [hnone1, hnone2]
      simp
    refine ⟨hex, hds, hdr, ?_⟩
    by_cases hne : calculate_sha256 dig source (d ++ [f]) ≠ calculate_sha256 dig st.fs (d ++ [f])
    · refine Or.inr ⟨hne, ?_⟩
      rw [hfs, if_pos hne, hst1]
    · refine Or.inl ⟨by simpa using hne, ?_⟩
      rw [hfs, if_neg hne, hst1]
  · left
    have hex' : st.fs.pathExists (d ++ [f]) = false := by simpa using hex
    refine ⟨hex', ?_⟩
    simp only [fileStep]
    rw [if_neg hex]

/-! ### The additive pass: invariants -/

theorem setFile_lookup {fs : FS} {p q : Path} {fd : FileData} :
    (fs.setFile p fd).lookupFile q = if q = p then some fd else fs.lookupFile q := by
  by_cases h : q = p
  · subst h
    rw [if_pos rfl]
    exact lookupFile_setFile_self
  · rw [if_neg h]
    exact lookupFile_setFile_ne h

theorem readFile_of_lookup {fs : FS} {p : Path} {fd : FileData}
    (h : fs.lookupFile p = some fd) (hr : fd.readable = true) :
    fs.readFile p = some fd.content := by
  simp [FS.readFile, h, hr]


theorem FileOK_congr {dig : List Nat → Nat} {S fs fs' : FS} {p : Path}
    (h : fs'.lookupFile p = fs.lookupFile p) (hok : FileOK dig S fs p) :
    FileOK dig S fs' p := by
  obtain ⟨h1, h2, h3⟩ := hok
  refine ⟨?_, ?_, h3⟩
  · rw [FS.isFile, FS.lookupFile] at h1 ⊢
    rw [show lookFD fs'.files p = lookFD fs.files p from h]
    exact h1
  · rw [calculate_sha256_congr h]
    exact h2


theorem copyAttempt_wf_success {source : FS} {p : Path} {f : Seg} {st : St}
    (hnd : st.fs.isDir p = false)
    (hnf : noFail (copyAttempt source p f st).evs = true) :
    ∃ fd, source.lookupFile p = some fd ∧ fd.readable = true ∧
      st.fs.isDir (parent p) = true ∧
      (copyAttempt source p f st).fs = st.fs.setFile p fd := by
  obtain ⟨fd, fs2, hs, hc, heq⟩ := copyAttempt_success hnf
  obtain ⟨hr, hbr⟩ := copy2_spec hc
  rcases hbr with ⟨h1, h2, h3⟩ | ⟨h1, _, _⟩
  · refine ⟨fd, hs, hr, h2, ?_⟩
    rw [heq, h3]
  · rw [h1] at hnd
    cases hnd

theorem fileStep_main {dig : List Nat → Nat} {S R : FS} {st : St} {d : Path} {f : Seg}
    (hinv : AddInv S R st) (hsf : S.isFile (d ++ [f]) = true)
    (hnf : noFail (fileStep dig S d f st).evs = true) :
    AddInv S R (fileStep dig S d f st) ∧
    FileOK dig S (fileStep dig S d f st).fs (d ++ [f]) ∧
    (∀ q, FileOK dig S st.fs q → FileOK dig S (fileStep dig S d f st).fs q) ∧
    (∀ q, st.fs.pathExists q = true → (fileStep dig S d f st).fs.pathExists q = true) ∧
    (∀ q, st.fs.isDir q = true → (fileStep dig S d f st).fs.isDir q = true) := by
  have hmain : fileStep dig S d f st = copyAttempt S (d ++ [f]) f st →
      st.fs.isDir (d ++ [f]) = false →
      AddInv S R (fileStep dig S d f st) ∧
      FileOK dig S (fileStep dig S d f st).fs (d ++ [f]) ∧
      (∀ q, FileOK dig S st.fs q → FileOK dig S (fileStep dig S d f st).fs q) ∧
      (∀ q, st.fs.pathExists q = true → (fileStep dig S d f st).fs.pathExists q = true) ∧
      (∀ q, st.fs.isDir q = true → (fileStep dig S d f st).fs.isDir q = true) := by
    intro heq hnd
    rw [heq] at hnf ⊢
    obtain ⟨fd, hs, hr, hpar, hfs⟩ := copyAttempt_wf_success hnd hnf
    have hlook : ∀ q, (copyAttempt S (d ++ [f]) f st).fs.lookupFile q =
        if q = d ++ [f] then some fd else st.fs.lookupFile q := by
      intro q
      rw [hfs]
      exact setFile_lookup
    have hisdir : ∀ q, (copyAttempt S (d ++ [f]) f st).fs.isDir q = st.fs.isDir q := by
      intro q
      rw [hfs]
      exact isDir_setFile
    have hne : (d : Path) ++ [f] ≠ [] := by simp
    have hokp : FileOK dig S (copyAttempt S (d ++ [f]) f st).fs (d ++ [f]) := by
      refine ⟨?_, ?_, ?_⟩
      · rw [FS.isFile, hlook, if_pos rfl]
        rfl
      · refine calculate_sha256_congr ?_
        rw [hlook, if_pos rfl, hs]
      · rw [calculate_sha256_eq, readFile_of_lookup hs hr]
        rfl
    refine ⟨⟨?_, ?_, ?_⟩, hokp, ?_, ?_, ?_⟩
    · rw [hfs]
      exact hinv.wf.setFile hne hpar hnd
    · intro q hq
      rw [hisdir] at hq
      exact hinv.dirOrigin q hq
    · intro q hq
      rw [FS.isFile, hlook] at hq
      by_cases he : q = d ++ [f]
      · rw [he]
        exact Or.inr hsf
      · rw [if_neg he] at hq
        exact hinv.fileOrigin q hq
    · intro q hok
      by_cases he : q = d ++ [f]
      · rw [he]
        exact hokp
      · refine FileOK_congr ?_ hok
        rw [hlook, if_neg he]
    · intro q hq
      rw [FS.pathExists, Bool.or_eq_true] at hq ⊢
      rcases hq with hq | hq
      · left
        rw [FS.isFile, hlook]
        by_cases he : q = d ++ [f]
        · rw [if_pos he]
          rfl
        · rwa [if_neg he]
      · right
        rw [hisdir]
        exact hq
    · intro q hq
      rw [hisdir]
      exact hq
  rcases fileStep_characterize hnf with ⟨hex, heq⟩ | ⟨hex, hds, hdr, hsub⟩
  · have hnd : st.fs.isDir (d ++ [f]) = false := by
      rw [FS.pathExists, Bool.or_eq_false_iff] at hex
      exact hex.2
    exact hmain heq hnd
  · rcases hsub with ⟨heqd, heq⟩ | ⟨hne, heq⟩
    · have hfile : st.fs.isFile (d ++ [f]) = true := calculate_sha256_isSome hdr
      rw [heq]
      exact ⟨hinv, ⟨hfile, heqd.symm, hds⟩, fun q hok => hok, fun q hq => hq, fun q hq => hq⟩
    · have hfile : st.fs.isFile (d ++ [f]) = true := calculate_sha256_isSome hdr
      have hnd : st.fs.isDir (d ++ [f]) = false :=
        hinv.wf.isDir_eq_false_of_isFile hfile
      exact hmain heq hnd

theorem dirStep_main {S R : FS} {st : St} {d : Path}
    (hS : WF S) (hinv : AddInv S R st) (hd : d ∈ S.dirs)
    (hnf : noFail (dirStep st d).evs = true) :
    AddInv S R (dirStep st d) ∧
    (dirStep st d).fs.pathExists d = true ∧
    (∀ q, (dirStep st d).fs.lookupFile q = st.fs.lookupFile q) ∧
    (∀ q, st.fs.pathExists q = true → (dirStep st d).fs.pathExists q = true) ∧
    (∀ q, st.fs.isDir q = true → (dirStep st d).fs.isDir q = true) := by
  rcases dirStep_characterize hnf with ⟨hex, heq⟩ | ⟨hex, hcan, heq⟩
  · rw [heq]
    exact ⟨hinv, hex, fun q => rfl, fun q hq => hq, fun q hq => hq⟩
  · have hSd : S.isDir d = true := isDir_iff_mem.mpr hd
    have hfs : (dirStep st d).fs = st.fs.makedirs d := by
      rw [heq]
    refine ⟨⟨?_, ?_, ?_⟩, ?_, ?_, ?_, ?_⟩
    · rw [hfs]
      exact hinv.wf.makedirs hcan
    · intro q hq
      rw [hfs, isDir_makedirs] at hq
      rcases hq with hq | hq
      · exact hinv.dirOrigin q hq
      · right
        by_cases he : q = d
        · rw [he]
          exact hSd
        · refine hS.dir_of_proper_ancestor ?_ hq he
          rw [FS.pathExists, hSd]
          simp
    · intro q hq
      rw [hfs, isFile_makedirs] at hq
      exact hinv.fileOrigin q hq
    · rw [FS.pathExists, Bool.or_eq_true]
      right
      rw [hfs, isDir_makedirs]
      exact Or.inr (List.prefix_refl d)
    · intro q
      rw [hfs]
      rfl
    · intro q hq
      rw [FS.pathExists, Bool.or_eq_true] at hq ⊢
      rcases hq with hq | hq
      · left
        rw [hfs, isFile_makedirs]
        exact hq
      · right
        rw [hfs, isDir_makedirs]
        exact Or.inl hq
    · intro q hq
      rw [hfs, isDir_makedirs]
      exact Or.inl hq

/-! ### The additive pass: fold-level lemmas -/

theorem isFile_of_mem_filesIn {fs : FS} {d : Path} {f : Seg} (h : f ∈ fs.filesIn d) :
    fs.isFile (d ++ [f]) = true := by
  rw [FS.filesIn] at h
  obtain ⟨q, hq, hf⟩ := List.mem_filterMap.mp h
  by_cases hd : q.dropLast = d
  · rw [if_pos hd] at hf
    have hq0 : q ≠ [] := by
      rintro rfl
      simp at hf
    rw [List.getLast?_eq_getLast_of_ne_nil hq0] at hf
    injection hf with hf2
    have hqe : q = d ++ [f] := by
      rw [← hd, ← hf2]
      exact (List.dropLast_append_getLast hq0).symm
    rw [isFile_iff_mem_keys, ← hqe]
    exact hq
  · rw [if_neg hd] at hf
    cases hf

theorem mem_filesIn_of_isFile {fs : FS} {d : Path} {f : Seg}
    (h : fs.isFile (d ++ [f]) = true) : f ∈ fs.filesIn d := by
  rw [isFile_iff_mem_keys] at h
  rw [FS.filesIn]
  refine List.mem_filterMap.mpr ⟨d ++ [f], h, ?_⟩
  rw [if_pos List.dropLast_concat, List.getLast?_concat]

theorem le_foldr_max {l : List Nat} {x : Nat} (h : x ∈ l) : x ≤ l.foldr Nat.max 0 := by
  induction l with
  | nil => cases h
  | cons a t ih =>
    rcases List.mem_cons.mp h with h | h
    · subst h
      exact Nat.le_max_left _ _
    · exact Nat.le_trans (ih h) (Nat.le_max_right _ _)

theorem mem_dirsByDepth {fs : FS} {d : Path} : d ∈ fs.dirsByDepth ↔ d ∈ fs.dirs := by
  rw [FS.dirsByDepth]
  constructor
  · intro h
    obtain ⟨l, hl, hd⟩ := List.mem_flatten.mp h
    obtain ⟨k, hk, he⟩ := List.mem_map.mp hl
    rw [← he] at hd
    exact (List.mem_filter.mp hd).1
  · intro h
    refine List.mem_flatten.mpr ⟨fs.dirs.filter (fun q => q.length = d.length), ?_, ?_⟩
    · refine List.mem_map.mpr ⟨d.length, ?_, rfl⟩
      refine List.mem_range.mpr ?_
      have hle : d.length ≤ fs.maxDepth := le_foldr_max (List.mem_map_of_mem List.length h)
      omega
    · exact List.mem_filter.mpr ⟨h, by simp⟩

theorem mem_addWalk_iff {fs : FS} {d : Path} {files : List Seg} :
    WEv.visit d files ∈ fs.addWalk ↔ d ∈ fs.dirs ∧ files = fs.filesIn d := by
  rw [FS.addWalk]
  constructor
  · intro h
    obtain ⟨d0, hd0, he⟩ := List.mem_map.mp h
    injection he with h1 h2
    subst h1
    exact ⟨mem_dirsByDepth.mp hd0, h2.symm⟩
  · rintro ⟨h1, rfl⟩
    exact List.mem_map.mpr ⟨d, mem_dirsByDepth.mpr h1, rfl⟩

theorem stepAdd_shape {dig : List Nat → Nat} {source : FS} {st : St} {e : WEv} :
    StepShape st (stepAdd dig source st e) := by
  cases e with
  | visit d files => exact addDirStep_shape
  | err => exact stepShape_id

theorem addFold_shape {dig : List Nat → Nat} {source : FS} {L : List WEv} {st : St} :
    StepShape st (addFold dig source L st) :=
  foldl_shape (fun st e => stepAdd_shape) L st

theorem filesFold_main {dig : List Nat → Nat} {S R : FS} {d : Path} :
    ∀ (files : List Seg) (st : St), AddInv S R st →
      (∀ f ∈ files, S.isFile (d ++ [f]) = true) →
      noFail (files.foldl (fun st f => fileStep dig S d f st) st).evs = true →
      AddInv S R (files.foldl (fun st f => fileStep dig S d f st) st) ∧
      (∀ f ∈ files,
        FileOK dig S (files.foldl (fun st f => fileStep dig S d f st) st).fs (d ++ [f])) ∧
      (∀ q, FileOK dig S st.fs q →
        FileOK dig S (files.foldl (fun st f => fileStep dig S d f st) st).fs q) ∧
      (∀ q, st.fs.pathExists q = true →
        (files.foldl (fun st f => fileStep dig S d f st) st).fs.pathExists q = true) ∧
      (∀ q, st.fs.isDir q = true →
        (files.foldl (fun st f => fileStep dig S d f st) st).fs.isDir q = true) := by
  intro files
  induction files with
  | nil =>
    intro st hinv _ _
    exact ⟨hinv, by simp, fun q h => h, fun q h => h, fun q h => h⟩
  | cons f fl ih =>
    intro st hinv hfiles hnf
    rw [List.foldl_cons] at hnf ⊢
    have hnf1 : noFail (fileStep dig S d f st).evs = true :=
      noFail_of_shape (foldl_shape (fun st f => fileStep_shape) fl (fileStep dig S d f st)) hnf
    obtain ⟨hinv1, hok1, hpres1, hex1, hdir1⟩ :=
      fileStep_main hinv (hfiles f (List.mem_cons_self f fl)) hnf1
    obtain ⟨hinv2, hall2, hpres2, hex2, hdir2⟩ :=
      ih (fileStep dig S d f st) hinv1 (fun g hg => hfiles g (List.mem_cons_of_mem f hg)) hnf
    refine ⟨hinv2, ?_, fun q hok => hpres2 q (hpres1 q hok),
      fun q hq => hex2 q (hex1 q hq), fun q hq => hdir2 q (hdir1 q hq)⟩
    intro g hg
    rcases List.mem_cons.mp hg with he | hm
    · subst he
      exact hpres2 _ hok1
    · exact hall2 g hm

theorem addDirStep_main {dig : List Nat → Nat} {S R : FS} {st : St} {d : Path}
    {files : List Seg} (hS : WF S) (hinv : AddInv S R st)
    (hd : d ∈ S.dirs) (hfiles : ∀ f ∈ files, S.isFile (d ++ [f]) = true)
    (hnf : noFail (addDirStep dig S st d files).evs = true) :
    AddInv S R (addDirStep dig S st d files) ∧
    (addDirStep dig S st d files).fs.pathExists d = true ∧
    (∀ f ∈ files, FileOK dig S (addDirStep dig S st d files).fs (d ++ [f])) ∧
    (∀ q, FileOK dig S st.fs q → FileOK dig S (addDirStep dig S st d files).fs q) ∧
    (∀ q, st.fs.pathExists q = true → (addDirStep dig S st d files).fs.pathExists q = true) ∧
    (∀ q, st.fs.isDir q = true → (addDirStep dig S st d files).fs.isDir q = true) := by
  rw [addDirStep] at hnf ⊢
  have hnfd : noFail (dirStep st d).evs = true :=
    noFail_of_shape (foldl_shape (fun st f => fileStep_shape) files (dirStep st d)) hnf
  obtain ⟨hinv1, hexd, hlookd, hexm, hdirm⟩ := dirStep_main hS hinv hd hnfd
  obtain ⟨hinv2, hall, hpres, hexm2, hdirm2⟩ :=
    filesFold_main files (dirStep st d) hinv1 hfiles hnf
  exact ⟨hinv2, hexm2 d hexd, hall,
    fun q hok => hpres q (FileOK_congr (hlookd q) hok),
    fun q hq => hexm2 q (hexm q hq), fun q hq => hdirm2 q (hdirm q hq)⟩

theorem addFold_main {dig : List Nat → Nat} {S R : FS} (hS : WF S) :
    ∀ (L : List WEv) (st : St), AddInv S R st →
      (∀ d files, WEv.visit d files ∈ L → d ∈ S.dirs ∧ files = S.filesIn d) →
      noFail (addFold dig S L st).evs = true →
      AddInv S R (addFold dig S L st) ∧
      (∀ d files, WEv.visit d files ∈ L →
        (addFold dig S L st).fs.pathExists d = true ∧
        ∀ f ∈ files, FileOK dig S (addFold dig S L st).fs (d ++ [f])) ∧
      (∀ q, FileOK dig S st.fs q → FileOK dig S (addFold dig S L st).fs q) ∧
      (∀ q, st.fs.pathExists q = true → (addFold dig S L st).fs.pathExists q = true) ∧
      (∀ q, st.fs.isDir q = true → (addFold dig S L st).fs.isDir q = true) := by
  intro L
  induction L with
  | nil =>
    intro st hinv _ _
    refine ⟨hinv, ?_, fun q h => h, fun q h => h, fun q h => h⟩
    intro d files hmem
    cases hmem
  | cons e rest ih =>
    intro st hinv hwalk hnf
    cases e with
    | err =>
      have hstep : addFold dig S (WEv.err :: rest) st = addFold dig S rest st := rfl
      rw [hstep] at hnf ⊢
      obtain ⟨A, B, C, D, E⟩ := ih st hinv
        (fun d files hm => hwalk d files (List.mem_cons_of_mem _ hm)) hnf
      refine ⟨A, ?_, C, D, E⟩
      intro d files hmem
      rcases List.mem_cons.mp hmem with he | hm
      · cases he
      · exact B d files hm
    | visit d files =>
      have hstep : addFold dig S (WEv.visit d files :: rest) st =
          addFold dig S rest (addDirStep dig S st d files) := rfl
      rw [hstep] at hnf ⊢
      obtain ⟨hd, hfe⟩ := hwalk d files (List.mem_cons_self _ _)
      have hfiles : ∀ f ∈ files, S.isFile (d ++ [f]) = true := by
        intro f hf
        rw [hfe] at hf
        exact isFile_of_mem_filesIn hf
      have hnf1 : noFail (addDirStep dig S st d files).evs = true :=
        noFail_of_shape addFold_shape hnf
      obtain ⟨hinv1, hexd, hall1, hpres1, hexm1, hdirm1⟩ :=
        addDirStep_main hS hinv hd hfiles hnf1
      obtain ⟨hinv2, hall2, hpres2, hexm2, hdirm2⟩ :=
        ih (addDirStep dig S st d files) hinv1
          (fun d' files' hm => hwalk d' files' (List.mem_cons_of_mem _ hm)) hnf
      refine ⟨hinv2, ?_, fun q hok => hpres2 q (hpres1 q hok),
        fun q hq => hexm2 q (hexm1 q hq), fun q hq => hdirm2 q (hdirm1 q hq)⟩
      intro d' files' hmem
      rcases List.mem_cons.mp hmem with he | hm
      · injection he with h1 h2
        subst h1
        subst h2
        exact ⟨hexm2 _ hexd, fun f hf => hpres2 _ (hall1 f hf)⟩
      · exact hall2 d' files' hm

/-- Summary of the additive pass on the real walk, under failure-freedom. -/
theorem add_pass_main {dig : List Nat → Nat} {S R : FS} (hS : WF S) (hR : WF R) {st1 : St}
    (hrun : runAdd dig S S.addWalk { fs := R, count := 0, evs := [] } = PassOut.ok st1)
    (hnf : noFail st1.evs = true) :
    WF st1.fs ∧
    (∀ q, st1.fs.isDir q = true → R.isDir q = true ∨ S.isDir q = true) ∧
    (∀ q, st1.fs.isFile q = true → R.isFile q = true ∨ S.isFile q = true) ∧
    (∀ p, S.isDir p = true → st1.fs.pathExists p = true) ∧
    (∀ p, S.isFile p = true → FileOK dig S st1.fs p) := by
  rw [runAdd_eq_ok addWalk_no_err] at hrun
  injection hrun with hrun
  subst hrun
  have hinv0 : AddInv S R { fs := R, count := 0, evs := [] } :=
    ⟨hR, fun q hq => Or.inl hq, fun q hq => Or.inl hq⟩
  obtain ⟨hinv, hvisits, _, _, _⟩ :=
    addFold_main hS S.addWalk { fs := R, count := 0, evs := [] } hinv0
      (fun d files hm => mem_addWalk_iff.mp hm) hnf
  refine ⟨hinv.wf, hinv.dirOrigin, hinv.fileOrigin, ?_, ?_⟩
  · intro p hp
    exact (hvisits p (S.filesIn p)
      (mem_addWalk_iff.mpr ⟨isDir_iff_mem.mp hp, rfl⟩)).1
  · intro p hp
    have hsome : ∃ fd, S.lookupFile p = some fd := by
      rw [FS.isFile] at hp
      exact Option.isSome_iff_exists.mp hp
    obtain ⟨fd, hfd⟩ := hsome
    have hmem := lookFD_mem hfd
    have hp0 : p ≠ [] := (hS.fileParent (p, fd) hmem).1
    have hpd : S.isDir (parent p) = true := (hS.fileParent (p, fd) hmem).2
    have hdecomp : parent p ++ [p.getLast hp0] = p := List.dropLast_append_getLast hp0
    have hfin : p.getLast hp0 ∈ S.filesIn (parent p) := by
      apply mem_filesIn_of_isFile
      rw [hdecomp]
      exact hp
    have hvis := (hvisits (parent p) (S.filesIn (parent p))
      (mem_addWalk_iff.mpr ⟨isDir_iff_mem.mp hpd, rfl⟩)).2
    have := hvis (p.getLast hp0) hfin
    rwa [hdecomp] at this

/-! ### The subtractive pass -/

theorem bool_eq_of_iff {a b : Bool} (h : a = true ↔ b = true) : a = b := by
  cases a <;> cases b <;> simp_all

theorem isDir_congr_dirs {fs fs' : FS} (h : fs'.dirs = fs.dirs) {q : Path} :
    fs'.isDir q = fs.isDir q := by
  simp [FS.isDir, h]

theorem mem_removeWalk_iff {fs : FS} {d : Path} {files : List Seg} :
    WEv.visit d files ∈ fs.removeWalk ↔ d ∈ fs.dirs ∧ files = fs.filesIn d := by
  rw [FS.removeWalk, FS.removeWalkDirs]
  constructor
  · intro h
    obtain ⟨d0, hd0, he⟩ := List.mem_map.mp h
    injection he with h1 h2
    subst h1
    rw [List.mem_reverse] at hd0
    exact ⟨mem_dirsByDepth.mp hd0, h2.symm⟩
  · rintro ⟨h1, rfl⟩
    exact List.mem_map.mpr ⟨d, List.mem_reverse.mpr (mem_dirsByDepth.mpr h1), rfl⟩

theorem stepRemove_shape {source : FS} {st : St} {e : WEv} :
    StepShape st (stepRemove source st e) := by
  cases e with
  | visit d files => exact removeDirStep_shape
  | err => exact stepShape_id

theorem removeFold_shape {source : FS} {L : List WEv} {st : St} :
    StepShape st (removeFold source L st) :=
  foldl_shape (fun st e => stepRemove_shape) L st

theorem removeFileStep_characterize {source : FS} {d : Path} {f : Seg} {st : St}
    (hnf : noFail (removeFileStep source d f st).evs = true) :
    (source.pathExists (d ++ [f]) = true ∧ removeFileStep source d f st = st) ∨
    (source.pathExists (d ++ [f]) = false ∧
      ∃ fs2, st.fs.removeFile (d ++ [f]) = some fs2 ∧
        removeFileStep source d f st = { st with
          count := st.count + 1,
          fs := fs2,
          evs := st.evs ++ [Ev.removedFile (d ++ [f])] }) := by
  by_cases hex : source.pathExists (d ++ [f]) = true
  · exact Or.inl ⟨hex, by simp [removeFileStep, hex]⟩
  · have hex' : source.pathExists (d ++ [f]) = false := by simpa using hex
    cases hr : st.fs.removeFile (d ++ [f]) with
    | some fs2 =>
      exact Or.inr ⟨hex', fs2, rfl, by simp [removeFileStep, hex', hr]⟩
    | none =>
      exfalso
      have he : (removeFileStep source d f st).evs =
          st.evs ++ [Ev.removeFileFail (d ++ [f])] := by
        simp [removeFileStep, hex', hr]
      rw [he] at hnf
      exact absurd (List.mem_append_right _ (List.mem_cons_self _ _))
        (not_mem_of_noFail hnf rfl)

theorem removeFileStep_isFile_mono {source : FS} {d : Path} {f : Seg} {st : St} {q : Path} :
    (removeFileStep source d f st).fs.isFile q = true → st.fs.isFile q = true := by
  simp only [removeFileStep]
  by_cases hex : source.pathExists (d ++ [f]) = true
  · rw [if_pos hex]
    exact fun h => h
  · rw [if_neg hex]
    cases hr : st.fs.removeFile (d ++ [f]) with
    | some fs2 =>
      intro h
      rw [FS.isFile, (removeFile_spec hr).1 q] at h
      by_cases he : q = d ++ [f]
      · rw [if_pos he] at h
        cases h
      · rw [if_neg he] at h
        exact h
    | none =>
      exact fun h => h

theorem removeFileStep_isDir_eq {source : FS} {d : Path} {f : Seg} {st : St} {q : Path} :
    (removeFileStep source d f st).fs.isDir q = st.fs.isDir q := by
  simp only [removeFileStep]
  by_cases hex : source.pathExists (d ++ [f]) = true
  · rw [if_pos hex]
  · rw [if_neg hex]
    cases hr : st.fs.removeFile (d ++ [f]) with
    | some fs2 => exact isDir_congr_dirs (removeFile_spec hr).2
    | none => rfl

theorem foldl_pred_origin {α : Type} {g : St → α → St} (P : FS → Prop)
    (hg : ∀ st a, P (g st a).fs → P st.fs) :
    ∀ (l : List α) (st : St), P (l.foldl g st).fs → P st.fs := by
  intro l
  induction l with
  | nil => exact fun st h => h
  | cons a t ih =>
    intro st h
    rw [List.foldl_cons] at h
    exact hg st a (ih (g st a) h)

theorem removeDirStep_isFile_mono {source : FS} {st : St} {d : Path} {files : List Seg}
    {q : Path} :
    (removeDirStep source st d files).fs.isFile q = true → st.fs.isFile q = true := by
  simp only [removeDirStep]
  intro h
  have hfold : (files.foldl (fun st f => removeFileStep source d f st) st).fs.isFile q =
      true → st.fs.isFile q = true :=
    foldl_pred_origin (fun fs => fs.isFile q = true)
      (fun st a => removeFileStep_isFile_mono) files st
  by_cases hex : source.pathExists d = true
  · rw [if_pos hex] at h
    exact hfold h
  · rw [if_neg hex] at h
    cases hr : FS.rmtree (files.foldl (fun st f => removeFileStep source d f st) st).fs d with
    | some fs2 =>
      rw [hr] at h
      refine hfold ?_
      have := (rmtree_spec hr).1 q
      rw [FS.isFile] at h ⊢
      by_cases hpre : d <+: q
      · rw [show (fs2.lookupFile q) = none by rw [this, if_pos hpre]] at h
        cases h
      · rwa [show (fs2.lookupFile q) =
          (files.foldl (fun st f => removeFileStep source d f st) st).fs.lookupFile q by
            rw [this, if_neg hpre]] at h
    | none =>
      rw [hr] at h
      exact hfold h

theorem filesRemFold_isDir_eq {source : FS} {d : Path} :
    ∀ (files : List Seg) (st : St) (q : Path),
      (files.foldl (fun st f => removeFileStep source d f st) st).fs.isDir q =
        st.fs.isDir q := by
  intro files
  induction files with
  | nil => exact fun st q => rfl
  | cons a t ih =>
    intro st q
    rw [List.foldl_cons, ih]
    exact removeFileStep_isDir_eq

theorem removeDirStep_isDir_mono {source : FS} {st : St} {d : Path} {files : List Seg}
    {q : Path} :
    (removeDirStep source st d files).fs.isDir q = true → st.fs.isDir q = true := by
  simp only [removeDirStep]
  intro h
  have hfoldeq : (files.foldl (fun st f => removeFileStep source d f st) st).fs.isDir q =
      st.fs.isDir q := filesRemFold_isDir_eq files st q
  by_cases hex : source.pathExists d = true
  · rw [if_pos hex] at h
    rw [hfoldeq] at h
    exact h
  · rw [if_neg hex] at h
    cases hr : FS.rmtree (files.foldl (fun st f => removeFileStep source d f st) st).fs d with
    | some fs2 =>
      rw [hr] at h
      rw [← hfoldeq]
      exact ((rmtree_spec hr).2 q).mp h |>.1
    | none =>
      rw [hr] at h
      rw [hfoldeq] at h
      exact h

theorem stepRemove_isFile_mono {source : FS} {st : St} {e : WEv} {q : Path} :
    (stepRemove source st e).fs.isFile q = true → st.fs.isFile q = true := by
  cases e with
  | visit d files => exact removeDirStep_isFile_mono
  | err => exact fun h => h

theorem stepRemove_isDir_mono {source : FS} {st : St} {e : WEv} {q : Path} :
    (stepRemove source st e).fs.isDir q = true → st.fs.isDir q = true := by
  cases e with
  | visit d files => exact removeDirStep_isDir_mono
  | err => exact fun h => h

theorem removeFold_isFile_mono {source : FS} {L : List WEv} {st : St} {q : Path} :
    (removeFold source L st).fs.isFile q = true → st.fs.isFile q = true :=
  foldl_pred_origin (fun fs => fs.isFile q = true)
    (fun st e => stepRemove_isFile_mono) L st

theorem removeFold_isDir_mono {source : FS} {L : List WEv} {st : St} {q : Path} :
    (removeFold source L st).fs.isDir q = true → st.fs.isDir q = true :=
  foldl_pred_origin (fun fs => fs.isDir q = true)
    (fun st e => stepRemove_isDir_mono) L st

theorem removeFileStep_keep {source : FS} {d : Path} {f : Seg} {st : St} {q : Path}
    (hq : source.pathExists q = true) :
    (removeFileStep source d f st).fs.lookupFile q = st.fs.lookupFile q ∧
    (removeFileStep source d f st).fs.isDir q = st.fs.isDir q := by
  refine ⟨?_, removeFileStep_isDir_eq⟩
  simp only [removeFileStep]
  by_cases hex : source.pathExists (d ++ [f]) = true
  · rw [if_pos hex]
  · rw [if_neg hex]
    cases hr : st.fs.removeFile (d ++ [f]) with
    | some fs2 =>
      have hne : q ≠ d ++ [f] := by
        intro he
        rw [he] at hq
        rw [hq] at hex
        exact hex rfl
      rw [(removeFile_spec hr).1 q, if_neg hne]
    | none => rfl

theorem removeDirStep_keep {source : FS} (hS : WF source) {st : St} {d : Path}
    {files : List Seg} {q : Path} (hq : source.pathExists q = true) :
    (removeDirStep source st d files).fs.lookupFile q = st.fs.lookupFile q ∧
    (removeDirStep source st d files).fs.isDir q = st.fs.isDir q := by
  simp only [removeDirStep]
  have hfold : ∀ (fl : List Seg) (st : St),
      (fl.foldl (fun st f => removeFileStep source d f st) st).fs.lookupFile q =
        st.fs.lookupFile q ∧
      (fl.foldl (fun st f => removeFileStep source d f st) st).fs.isDir q =
        st.fs.isDir q := by
    intro fl
    induction fl with
    | nil => exact fun st => ⟨rfl, rfl⟩
    | cons a t ih =>
      intro st
      rw [List.foldl_cons]
      obtain ⟨h1, h2⟩ := ih (removeFileStep source d a st)
      obtain ⟨h3, h4⟩ := @removeFileStep_keep source d a st q hq
      exact ⟨h1.trans h3, h2.trans h4⟩
  by_cases hex : source.pathExists d = true
  · rw [if_pos hex]
    exact hfold files st
  · rw [if_neg hex]
    cases hr : FS.rmtree (files.foldl (fun st f => removeFileStep source d f st) st).fs d with
    | some fs2 =>
      have hnpre : ¬ d <+: q := by
        intro hpre
        have := hS.pathExists_of_ancestor hq hpre
        rw [this] at hex
        exact hex rfl
      obtain ⟨h1, h2⟩ := hfold files st
      constructor
      · rw [show (({ files.foldl (fun st f => removeFileStep source d f st) st with
          count := (files.foldl (fun st f => removeFileStep source d f st) st).count + 1,
          fs := fs2,
          evs := (files.foldl (fun st f => removeFileStep source d f st) st).evs ++
            [Ev.removedDir d] } : St)).fs = fs2 from rfl]
        rw [(rmtree_spec hr).1 q, if_neg hnpre]
        exact h1
      · rw [show (({ files.foldl (fun st f => removeFileStep source d f st) st with
          count := (files.foldl (fun st f => removeFileStep source d f st) st).count + 1,
          fs := fs2,
          evs := (files.foldl (fun st f => removeFileStep source d f st) st).evs ++
            [Ev.removedDir d] } : St)).fs = fs2 from rfl]
        rw [← h2]
        refine bool_eq_of_iff ?_
        rw [(rmtree_spec hr).2 q]
        constructor
        · exact fun hh => hh.1
        · exact fun hh => ⟨hh, hnpre⟩
    | none =>
      exact hfold files st

theorem removeFold_keep {source : FS} (hS : WF source) :
    ∀ (L : List WEv) (st : St) (q : Path), source.pathExists q = true →
      (removeFold source L st).fs.lookupFile q = st.fs.lookupFile q ∧
      (removeFold source L st).fs.isDir q = st.fs.isDir q := by
  intro L
  induction L with
  | nil => exact fun st q _ => ⟨rfl, rfl⟩
  | cons e rest ih =>
    intro st q hq
    have hstep : removeFold source (e :: rest) st =
        removeFold source rest (stepRemove source st e) := rfl
    rw [hstep]
    obtain ⟨h1, h2⟩ := ih (stepRemove source st e) q hq
    cases e with
    | visit d files =>
      obtain ⟨h3, h4⟩ := @removeDirStep_keep source hS st d files q hq
      exact ⟨h1.trans h3, h2.trans h4⟩
    | err =>
      exact ⟨h1, h2⟩

theorem filesRemFold_complete {source : FS} {d : Path} :
    ∀ (files : List Seg) (st : St),
      noFail (files.foldl (fun st f => removeFileStep source d f st) st).evs = true →
      ∀ f ∈ files, source.pathExists (d ++ [f]) = false →
        (files.foldl (fun st f => removeFileStep source d f st) st).fs.isFile (d ++ [f]) =
          false := by
  intro files
  induction files with
  | nil =>
    intro st _ f hf
    cases hf
  | cons g fl ih =>
    intro st hnf f hf hex
    rw [List.foldl_cons] at hnf ⊢
    rcases List.mem_cons.mp hf with he | hm
    · rw [he] at hex ⊢
      have hnf1 : noFail (removeFileStep source d g st).evs = true :=
        noFail_of_shape (foldl_shape (fun st f => removeFileStep_shape) fl _) hnf
      rcases removeFileStep_characterize hnf1 with ⟨hex2, _⟩ | ⟨_, fs2, hr, heq⟩
      · rw [hex2] at hex
        cases hex
      · have hafter : (removeFileStep source d g st).fs.isFile (d ++ [g]) = false := by
          rw [heq]
          show fs2.isFile (d ++ [g]) = false
          rw [FS.isFile, (removeFile_spec hr).1, if_pos rfl]
          rfl
        by_contra hc
        rw [Bool.not_eq_false] at hc
        have hor := foldl_pred_origin (fun fs => fs.isFile (d ++ [g]) = true)
          (fun st a => removeFileStep_isFile_mono) fl (removeFileStep source d g st) hc
        have hor2 : (removeFileStep source d g st).fs.isFile (d ++ [g]) = true := hor
        rw [hafter] at hor2
        cases hor2
    · exact ih (removeFileStep source d g st) hnf f hm hex

theorem removeDirStep_complete {source : FS} {st : St} {d : Path} {files : List Seg}
    (hnf : noFail (removeDirStep source st d files).evs = true) :
    (∀ f ∈ files, source.pathExists (d ++ [f]) = false →
      (removeDirStep source st d files).fs.isFile (d ++ [f]) = false) ∧
    (source.pathExists d = false →
      (removeDirStep source st d files).fs.isDir d = false) := by
  by_cases hex : source.pathExists d = true
  · have heq : removeDirStep source st d files =
        files.foldl (fun st f => removeFileStep source d f st) st := by
      simp [removeDirStep, hex]
    rw [heq] at hnf ⊢
    refine ⟨fun f hf hexf => filesRemFold_complete files st hnf f hf hexf, ?_⟩
    intro h
    rw [h] at hex
    cases hex
  · have hex' : source.pathExists d = false := by simpa using hex
    cases hr : FS.rmtree (files.foldl (fun st f => removeFileStep source d f st) st).fs d with
    | some fs2 =>
      have heq : removeDirStep source st d files =
          { files.foldl (fun st f => removeFileStep source d f st) st with
            count := (files.foldl (fun st f => removeFileStep source d f st) st).count + 1,
            fs := fs2,
            evs := (files.foldl (fun st f => removeFileStep source d f st) st).evs ++
              [Ev.removedDir d] } := by
        simp [removeDirStep, hex', hr]
      rw [heq] at hnf ⊢
      constructor
      · intro f hf hexf
        show fs2.isFile (d ++ [f]) = false
        rw [FS.isFile, (rmtree_spec hr).1, if_pos (List.prefix_append d [f])]
        rfl
      · intro _
        show fs2.isDir d = false
        by_contra hc
        rw [Bool.not_eq_false] at hc
        obtain ⟨_, hnp⟩ := ((rmtree_spec hr).2 d).mp hc
        exact hnp (List.prefix_refl d)
    | none =>
      have heq : removeDirStep source st d files =
          { files.foldl (fun st f => removeFileStep source d f st) st with
            count := (files.foldl (fun st f => removeFileStep source d f st) st).count + 1,
            evs := (files.foldl (fun st f => removeFileStep source d f st) st).evs ++
              [Ev.removeDirFail d] } := by
        simp [removeDirStep, hex', hr]
      rw [heq] at hnf
      exfalso
      have hmem : Ev.removeDirFail d ∈
          (files.foldl (fun st f => removeFileStep source d f st) st).evs ++
            [Ev.removeDirFail d] :=
        List.mem_append_right _ (List.mem_cons_self _ _)
      exact absurd hmem (not_mem_of_noFail hnf rfl)

/-- Summary of the subtractive pass on the real walk, under failure-freedom:
exactly the replica entries without a source counterpart disappear, and the
surviving entries keep their data. -/
theorem remove_pass_main {S : FS} (hS : WF S) {st1 : St} (hwf1 : WF st1.fs) {F : St}
    (hrun : runRemove S st1.fs.removeWalk st1 = PassOut.ok F)
    (hnf : noFail F.evs = true) :
    (∀ q, F.fs.isFile q = true ↔ (st1.fs.isFile q = true ∧ S.pathExists q = true)) ∧
    (∀ q, F.fs.isDir q = true ↔ (st1.fs.isDir q = true ∧ S.pathExists q = true)) ∧
    (∀ q, S.pathExists q = true → F.fs.lookupFile q = st1.fs.lookupFile q) := by
  rw [runRemove_eq_ok removeWalk_no_err] at hrun
  injection hrun with hrun
  subst hrun
  have hkeep := fun q hq => removeFold_keep hS st1.fs.removeWalk st1 q hq
  refine ⟨?_, ?_, fun q hq => (hkeep q hq).1⟩
  · intro q
    constructor
    · intro hf
      have hR : st1.fs.isFile q = true := removeFold_isFile_mono hf
      refine ⟨hR, ?_⟩
      by_contra hq
      rw [Bool.not_eq_true] at hq
      have hR' := hR
      rw [FS.isFile] at hR'
      obtain ⟨fd, hfd⟩ := Option.isSome_iff_exists.mp hR'
      have hmem := lookFD_mem hfd
      have hp0 : q ≠ [] := (hwf1.fileParent (q, fd) hmem).1
      have hpd : st1.fs.isDir (parent q) = true := (hwf1.fileParent (q, fd) hmem).2
      have hdecomp : parent q ++ [q.getLast hp0] = q := List.dropLast_append_getLast hp0
      have hfin : q.getLast hp0 ∈ st1.fs.filesIn (parent q) := by
        apply mem_filesIn_of_isFile
        rw [hdecomp]
        exact hR
      have hvis : WEv.visit (parent q) (st1.fs.filesIn (parent q)) ∈ st1.fs.removeWalk :=
        mem_removeWalk_iff.mpr ⟨isDir_iff_mem.mp hpd, rfl⟩
      obtain ⟨L1, L2, hsplit⟩ := List.append_of_mem hvis
      have hsteq : removeFold S st1.fs.removeWalk st1 =
          removeFold S L2 (removeDirStep S (removeFold S L1 st1) (parent q)
            (st1.fs.filesIn (parent q))) := by
        rw [hsplit, removeFold_append]
        rfl
      have hshape : StepShape
          (removeDirStep S (removeFold S L1 st1) (parent q) (st1.fs.filesIn (parent q)))
          (removeFold S L2 (removeDirStep S (removeFold S L1 st1) (parent q)
            (st1.fs.filesIn (parent q)))) := removeFold_shape
      have hnf1 : noFail (removeDirStep S (removeFold S L1 st1) (parent q)
          (st1.fs.filesIn (parent q))).evs = true := by
        refine noFail_of_shape hshape ?_
        rw [← hsteq]
        exact hnf
      have hgone := (removeDirStep_complete hnf1).1 (q.getLast hp0) hfin
        (by rw [hdecomp]; exact hq)
      rw [hsteq] at hf
      have hmono := removeFold_isFile_mono hf
      rw [hdecomp] at hgone
      rw [hgone] at hmono
      cases hmono
    · rintro ⟨h1, h2⟩
      rw [FS.isFile, (hkeep q h2).1]
      exact h1
  · intro q
    constructor
    · intro hd
      have hR : st1.fs.isDir q = true := removeFold_isDir_mono hd
      refine ⟨hR, ?_⟩
      by_contra hq
      rw [Bool.not_eq_true] at hq
      have hvis : WEv.visit q (st1.fs.filesIn q) ∈ st1.fs.removeWalk :=
        mem_removeWalk_iff.mpr ⟨isDir_iff_mem.mp hR, rfl⟩
      obtain ⟨L1, L2, hsplit⟩ := List.append_of_mem hvis
      have hsteq : removeFold S st1.fs.removeWalk st1 =
          removeFold S L2 (removeDirStep S (removeFold S L1 st1) q (st1.fs.filesIn q)) := by
        rw [hsplit, removeFold_append]
        rfl
      have hshape : StepShape
          (removeDirStep S (removeFold S L1 st1) q (st1.fs.filesIn q))
          (removeFold S L2 (removeDirStep S (removeFold S L1 st1) q
            (st1.fs.filesIn q))) := removeFold_shape
      have hnf1 : noFail (removeDirStep S (removeFold S L1 st1) q
          (st1.fs.filesIn q)).evs = true := by
        refine noFail_of_shape hshape ?_
        rw [← hsteq]
        exact hnf
      have hgone := (removeDirStep_complete hnf1).2 hq
      rw [hsteq] at hd
      have hmono := removeFold_isDir_mono hd
      rw [hgone] at hmono
      cases hmono
    · rintro ⟨h1, h2⟩
      rw [(hkeep q h2).2]
      exact h1

/-! ### Walk order: deepest first in the subtractive pass -/

theorem dirsByDepth_pairwise {fs : FS} :
    List.Pairwise (fun a b : Path => a.length ≤ b.length) fs.dirsByDepth := by
  rw [FS.dirsByDepth, List.pairwise_flatten]
  constructor
  · intro l hl
    obtain ⟨k, hk, he⟩ := List.mem_map.mp hl
    refine List.pairwise_of_forall_mem_list ?_
    intro a ha b hb
    rw [← he] at ha hb
    have h1 : a.length = k := by simpa using (List.mem_filter.mp ha).2
    have h2 : b.length = k := by simpa using (List.mem_filter.mp hb).2
    rw [h1, h2]
  · rw [List.pairwise_map]
    refine (List.pairwise_lt_range _).imp ?_
    intro i j hij a ha b hb
    have h1 : a.length = i := by simpa using (List.mem_filter.mp ha).2
    have h2 : b.length = j := by simpa using (List.mem_filter.mp hb).2
    rw [h1, h2]
    exact Nat.le_of_lt hij

theorem length_lt_of_proper_ancestor {p q : Path} (hpre : p <+: q) (hne : p ≠ q) :
    p.length < q.length := by
  rcases Nat.lt_or_ge p.length q.length with h | h
  · exact h
  · exact absurd (List.IsPrefix.eq_of_length hpre
      (Nat.le_antisymm hpre.length_le h)) hne

/-- In the bottom-up walk of the subtractive pass, every directory appears
after all of its proper descendants. -/
theorem removeWalkDirs_order {fs : FS} {p q : Path} (hq : q ∈ fs.dirs)
    (hpre : p <+: q) (hne : p ≠ q) :
    ∀ l₁ l₂, fs.removeWalkDirs = l₁ ++ p :: l₂ → q ∈ l₁ := by
  intro l₁ l₂ hsplit
  have hpair : List.Pairwise (fun a b : Path => b.length ≤ a.length) fs.removeWalkDirs := by
    rw [FS.removeWalkDirs, List.pairwise_reverse]
    exact dirsByDepth_pairwise
  have hqlen : p.length < q.length := length_lt_of_proper_ancestor hpre hne
  have hqmem : q ∈ fs.removeWalkDirs := by
    rw [FS.removeWalkDirs, List.mem_reverse]
    exact mem_dirsByDepth.mpr hq
  rw [hsplit] at hqmem hpair
  rcases List.mem_append.mp hqmem with h | h
  · exact h
  · exfalso
    rcases List.mem_cons.mp h with he | hm
    · exact hne (he.symm ▸ rfl)
    · have hcons := (List.pairwise_append.mp hpair).2.1
      have := (List.pairwise_cons.mp hcons).1 q hm
      omega


end SyncFolders

namespace SyncFolders

/-! ## Claim theorems -/

/-- C3, counterexample: with source directories `""`, `"a"`, `"a/b"` and a
replica holding a regular *file* at `a`, the only operation of the cycle is
a failing `os.makedirs(replica/a/b)`; the claim says a failed operation
does not increment the counter, yet the counter ends at 1 while zero
operations succeeded (the failure is logged as `createDirFail`). -/
theorem c3_counter_counterexample :
    (syncCycle digLen { files := [], dirs := [[], ["a"], ["a", "b"]] }
        { files := [(["a"], fdPlain)], dirs := [[]] }).st.count = 1 ∧
    countSuccesses (syncCycle digLen { files := [], dirs := [[], ["a"], ["a", "b"]] }
        { files := [(["a"], fdPlain)], dirs := [[]] }).st.evs = 0 ∧
    Ev.createDirFail ["a", "b"] ∈ (syncCycle digLen { files := [], dirs := [[], ["a"], ["a", "b"]] }
        { files := [(["a"], fdPlain)], dirs := [[]] }).st.evs ∧
    (FS.wfb { files := [], dirs := [[], ["a"], ["a", "b"]] }) = true ∧
    (FS.wfb { files := [(["a"], fdPlain)], dirs := [[]] }) = true := by
  decide

/-- C3, amended: the counter starts each cycle at zero and is incremented
exactly once per *attempted* create/copy/remove operation (the `count += 1`
precedes the guarded call), so an operation that fails has still incremented
it; digest failures never touch the counter. -/
theorem c3_counter_counts_attempts (dig : List Nat → Nat) (source replica : FS) :
    (syncCycle dig source replica).st.count =
      countAttempts (syncCycle dig source replica).st.evs := by
  obtain ⟨l, he, hc⟩ := @sync_folders_shape dig source { fs := replica, count := 0, evs := [] }
  rw [syncCycle, hc, he]
  simp

/-- C6: an error raised while enumerating the source tree (additive pass) or
the replica tree (subtractive pass) is logged as an error and terminates the
whole process with exit status 1 — the driver does not continue with later
cycles. -/
theorem c6_traversal_error_fatal (dig : List Nat → Nat) (source : FS) :
    (∀ (L : List WEv) (st : St), WEv.err ∈ L →
        ∃ st', runAdd dig source L st = .fatal st' 1 ∧ Ev.fatalError ∈ st'.evs) ∧
    (∀ (L : List WEv) (st : St), WEv.err ∈ L →
        ∃ st', runRemove source L st = .fatal st' 1 ∧ Ev.fatalError ∈ st'.evs) ∧
    (∀ (a r : List WEv) (rest : List (List WEv × List WEv)) (fs : FS),
        WEv.err ∈ a → runDriver dig source ((a, r) :: rest) fs = .exited 1) ∧
    (∀ (a r : List WEv) (rest : List (List WEv × List WEv)) (fs : FS),
        WEv.err ∉ a → WEv.err ∈ r →
        runDriver dig source ((a, r) :: rest) fs = .exited 1) := by
  refine ⟨fun L st h => runAdd_err_fatal h st, fun L st h => runRemove_err_fatal h st, ?_, ?_⟩
  · intro a r rest fs ha
    obtain ⟨st', h1, _⟩ := @runAdd_err_fatal dig source a ha { fs := fs, count := 0, evs := [] }
    simp [runDriver, syncCycleEvents, h1]
  · intro a r rest fs ha hr
    obtain ⟨st', h2, _⟩ :=
      @runRemove_err_fatal source r hr (addFold dig source a { fs := fs, count := 0, evs := [] })
    simp [runDriver, syncCycleEvents, runAdd_eq_ok ha, h2]

/-- Witness for C6 at a concrete input. -/
theorem c6_traversal_error_fatal_witness :
    (∃ st', runAdd digLen rootOnly [WEv.err] stRoot = .fatal st' 1 ∧
      Ev.fatalError ∈ st'.evs) ∧
    runDriver digLen rootOnly [([WEv.err], []), ([], [])] rootOnly = .exited 1 := by
  refine ⟨(c6_traversal_error_fatal digLen rootOnly).1 [WEv.err] stRoot (by decide), ?_⟩
  exact (c6_traversal_error_fatal digLen rootOnly).2.2.1 [WEv.err] [] [([], [])] rootOnly
    (by decide)

/-- C7: per-item failures are contained: as long as the traversal itself
does not fail, each pass runs to completion over *all* its items (returning
`.ok` of the total fold, never aborting), and processing a later segment of
items proceeds from whatever state the earlier segment produced — item
failures in the earlier segment (recorded as warning events by the per-item
`except` handlers) do not stop the fold.  The same holds for the file loop
inside one directory. -/
theorem c7_isolated_failure_containment (dig : List Nat → Nat) (source : FS) :
    (∀ (L : List WEv) (st : St), WEv.err ∉ L →
        runAdd dig source L st = .ok (addFold dig source L st)) ∧
    (∀ (l₁ l₂ : List WEv) (st : St),
        addFold dig source (l₁ ++ l₂) st = addFold dig source l₂ (addFold dig source l₁ st)) ∧
    (∀ (L : List WEv) (st : St), WEv.err ∉ L →
        runRemove source L st = .ok (removeFold source L st)) ∧
    (∀ (l₁ l₂ : List WEv) (st : St),
        removeFold source (l₁ ++ l₂) st = removeFold source l₂ (removeFold source l₁ st)) ∧
    (∀ (files1 files2 : List Seg) (d : Path) (st : St),
        (files1 ++ files2).foldl (fun st f => fileStep dig source d f st) st =
          files2.foldl (fun st f => fileStep dig source d f st)
            (files1.foldl (fun st f => fileStep dig source d f st) st)) := by
  refine ⟨fun L st h => runAdd_eq_ok h st, fun l₁ l₂ st => addFold_append l₁ l₂ st,
    fun L st h => runRemove_eq_ok h st, fun l₁ l₂ st => removeFold_append l₁ l₂ st,
    fun files1 files2 d st => ?_⟩
  simp [List.foldl_append]

/-- Witness for C7: a cycle in which one copy genuinely fails (unreadable
source file) still completes the pass and processes the remaining items. -/
theorem c7_isolated_failure_containment_witness :
    runAdd digLen { files := [([ "u" ], fdHidden), ([ "v" ], fdPlain)], dirs := [[]] }
        (FS.addWalk { files := [([ "u" ], fdHidden), ([ "v" ], fdPlain)], dirs := [[]] })
        stRoot =
      .ok (addFold digLen { files := [([ "u" ], fdHidden), ([ "v" ], fdPlain)], dirs := [[]] }
        (FS.addWalk { files := [([ "u" ], fdHidden), ([ "v" ], fdPlain)], dirs := [[]] })
        stRoot) := by
  exact (c7_isolated_failure_containment digLen
    { files := [([ "u" ], fdHidden), ([ "v" ], fdPlain)], dirs := [[]] }).1 _ stRoot
    (by decide)

/-- C8: the digest calculator returns `none` (no usable fingerprint, no
exception) when the file cannot be read; on success it returns the digest of
the full byte stream — the chunked `update` loop feeds back exactly the
stream — rendered as a fixed-width (64-digit) hexadecimal string; and a
failed digest computation inside the additive pass is logged as a
`digestFail` error event. -/
theorem c8_digest_calculator (dig : List Nat → Nat) (fs : FS) (p : Path) :
    (fs.readFile p = none → calculate_sha256 dig fs p = none) ∧
    (∀ c, fs.readFile p = some c →
        calculate_sha256 dig fs p = some (hexDigits 64 (dig c)) ∧
        shaFeed c = c ∧
        (hexDigits 64 (dig c)).length = 64) ∧
    (∀ (source : FS) (d : Path) (f : Seg) (st : St),
        st.fs.pathExists (d ++ [f]) = true →
        calculate_sha256 dig source (d ++ [f]) = none →
        Ev.digestFail (d ++ [f]) ∈ (fileStep dig source d f st).evs) := by
  refine ⟨?_, ?_, ?_⟩
  · intro h
    rw [calculate_sha256, h]
  · intro c h
    refine ⟨by simp [calculate_sha256, h, shaFeed_eq], shaFeed_eq c, hexDigits_length _ _⟩
  · intro source d f st hex hnone
    have hbase : Ev.digestFail (d ++ [f]) ∈ st.evs ++
        ((if (calculate_sha256 dig source (d ++ [f])).isNone then [Ev.digestFail (d ++ [f])]
          else []) ++
         (if (calculate_sha256 dig st.fs (d ++ [f])).isNone then [Ev.digestFail (d ++ [f])]
          else [])) := by
      rw [hnone]
      exact List.mem_append_right _ (List.mem_append_left _ (by simp))
    simp only [fileStep]
    rw [if_pos hex]
    by_cases hne : calculate_sha256 dig source (d ++ [f]) ≠ calculate_sha256 dig st.fs (d ++ [f])
    · rw [if_pos hne]
      obtain ⟨l, he, _⟩ := @copyAttempt_shape source (d ++ [f]) f
        { st with evs := st.evs ++
          ((if (calculate_sha256 dig source (d ++ [f])).isNone then [Ev.digestFail (d ++ [f])]
            else []) ++
           (if (calculate_sha256 dig st.fs (d ++ [f])).isNone then [Ev.digestFail (d ++ [f])]
            else [])) }
      rw [he]
      exact List.mem_append_left _ hbase
    · rw [if_neg hne]
      exact hbase

/-- Witness for C8 at a concrete readable file and a concrete failure. -/
theorem c8_digest_calculator_witness :
    (calculate_sha256 digLen { files := [([ "a" ], fdPlain)], dirs := [[]] } ["a"] =
      some (hexDigits 64 (digLen [104, 105])) ∧
     shaFeed [104, 105] = [104, 105] ∧
     (hexDigits 64 (digLen [104, 105])).length = 64) ∧
    calculate_sha256 digLen { files := [([ "u" ], fdHidden)], dirs := [[]] } ["u"] = none := by
  constructor
  · exact (c8_digest_calculator digLen { files := [([ "a" ], fdPlain)], dirs := [[]] }
      ["a"]).2.1 [104, 105] (by decide)
  · exact (c8_digest_calculator digLen { files := [([ "u" ], fdHidden)], dirs := [[]] }
      ["u"]).1 (by decide)

/-- C9: answering "n" at the confirmation prompt (after any number of
invalid answers, which are re-prompted) exits with status 0, while a
keyboard interrupt during the synchronization loop is logged as an
intentional stop at level `info` yet exits with status 1 — the same
non-zero status as unexpected-exception termination. -/
theorem c9_exit_status_convention :
    (∀ rest : List String, confirmOutcome ("n" :: rest) = .exitWith 0) ∧
    (∀ (pre rest : List String), (∀ a ∈ pre, a ≠ "y" ∧ a ≠ "n") →
        confirmOutcome (pre ++ "n" :: rest) = .exitWith 0) ∧
    termExitCode .keyboardInterrupt = 1 ∧
    termExitCode .keyboardInterrupt = termExitCode .unexpectedError ∧
    termExitCode .keyboardInterrupt ≠ 0 ∧
    termLogLevel .keyboardInterrupt = "info" ∧
    termMessage .keyboardInterrupt =
      "Program interrupted by user. Synchronization completed." := by
  have hfind : ∀ (pre : List String), (∀ a ∈ pre, a ≠ "y" ∧ a ≠ "n") → ∀ rest : List String,
      (pre ++ "n" :: rest).find? (fun a => a == "y" || a == "n") = some "n" := by
    intro pre
    induction pre with
    | nil =>
      intro _ rest
      rfl
    | cons a pre ih =>
      intro h rest
      have ha := h a (List.mem_cons_self a pre)
      have hpa : (a == "y" || a == "n") = false := by
        simp only [Bool.or_eq_false_iff, beq_eq_false_iff_ne]
        exact ha
      rw [List.cons_append, List.find?_cons_of_neg _ (by simp [hpa]),
        ih (fun b hb => h b (List.mem_cons_of_mem a hb)) rest]
  refine ⟨?_, ?_, rfl, rfl, by decide, rfl, rfl⟩
  · intro rest
    rfl
  · intro pre rest h
    rw [confirmOutcome, hfind pre h rest]
    rfl

/-- Witness for C9 with one invalid answer before the "n". -/
theorem c9_exit_status_convention_witness :
    confirmOutcome (["maybe"] ++ "n" :: []) = .exitWith 0 :=
  c9_exit_status_convention.2.1 ["maybe"] [] (by decide)

/-- C10: when the replica file exists but both digest computations fail,
`None != None` is false, so the additive pass treats the files as identical
and performs no copy: the state is unchanged except for the two logged
digest errors, and the counter does not move. -/
theorem c10_double_digest_failure (dig : List Nat → Nat) (source : FS) (d : Path)
    (f : Seg) (st : St)
    (hex : st.fs.pathExists (d ++ [f]) = true)
    (hs : calculate_sha256 dig source (d ++ [f]) = none)
    (hr : calculate_sha256 dig st.fs (d ++ [f]) = none) :
    fileStep dig source d f st =
      { st with evs := st.evs ++ [Ev.digestFail (d ++ [f]), Ev.digestFail (d ++ [f])] } := by
  simp only [fileStep]
  rw [if_pos hex, hs, hr]
  simp

/-- Witness for C10: both copies of `u` unreadable, different contents;
the copy is silently skipped. -/
theorem c10_double_digest_failure_witness :
    fileStep digLen { files := [([ "u" ], fdHidden)], dirs := [[]] } [] "u"
        { fs := { files := [([ "u" ], fdHidden2)], dirs := [[]] }, count := 0, evs := [] } =
      { fs := { files := [([ "u" ], fdHidden2)], dirs := [[]] }, count := 0,
        evs := [Ev.digestFail ["u"], Ev.digestFail ["u"]] } := by
  have h := c10_double_digest_failure digLen { files := [([ "u" ], fdHidden)], dirs := [[]] }
    [] "u" { fs := { files := [([ "u" ], fdHidden2)], dirs := [[]] }, count := 0, evs := [] }
    (by decide) (by decide) (by decide)
  simpa using h


/-- C5: after one subtractive pass with no deletion failures, exactly the
replica entries whose relative path has no entry (of any kind) in the
source have been removed — including deeply nested ones — and every entry
whose source path exists survives; when a directory's source counterpart is
absent its entire subtree is gone; and the traversal order puts every
directory after all of its proper descendants. -/
theorem c5_deletion_complete_and_safe (S R : FS) (hS : S.wfb = true) (hR : R.wfb = true)
    (F : St)
    (hrun : remove_files_and_directories S { fs := R, count := 0, evs := [] } = PassOut.ok F)
    (hnf : noFail F.evs = true) :
    (∀ q, F.fs.isFile q = true ↔ (R.isFile q = true ∧ S.pathExists q = true)) ∧
    (∀ q, F.fs.isDir q = true ↔ (R.isDir q = true ∧ S.pathExists q = true)) ∧
    (∀ p q, S.pathExists p = false → p <+: q → F.fs.pathExists q = false) ∧
    (∀ p q l₁ l₂, q ∈ R.dirs → p <+: q → p ≠ q →
        R.removeWalkDirs = l₁ ++ p :: l₂ → q ∈ l₁) := by
  rw [wfb_iff] at hS hR
  rw [remove_files_and_directories] at hrun
  obtain ⟨hfile, hdir, _⟩ := remove_pass_main hS hR hrun hnf
  refine ⟨hfile, hdir, ?_, ?_⟩
  · intro p q hp hpre
    have hq : S.pathExists q = false := by
      by_contra hc
      rw [Bool.not_eq_false] at hc
      have := hS.pathExists_of_ancestor hc hpre
      rw [hp] at this
      cases this
    rw [FS.pathExists, Bool.or_eq_false_iff]
    constructor
    · by_contra hc
      rw [Bool.not_eq_false] at hc
      have := ((hfile q).mp hc).2
      rw [hq] at this
      cases this
    · by_contra hc
      rw [Bool.not_eq_false] at hc
      have := ((hdir q).mp hc).2
      rw [hq] at this
      cases this
  · intro p q l₁ l₂ hq hpre hne hsplit
    exact removeWalkDirs_order hq hpre hne l₁ l₂ hsplit


/-- Witness for C5: a replica with a stale file and a stale nested subtree,
a source with one directory kept. -/
theorem c5_deletion_complete_and_safe_witness :
    srcK.wfb = true ∧ replStale.wfb = true ∧
    (∀ q, (remove_files_and_directories srcK stReplStale).st.fs.isFile q = true ↔
      (replStale.isFile q = true ∧ srcK.pathExists q = true)) := by
  refine ⟨by decide, by decide, ?_⟩
  have h := c5_deletion_complete_and_safe srcK replStale (by decide) (by decide)
    (remove_files_and_directories srcK stReplStale).st (by decide) (by decide)
  exact h.1


theorem noDirFileConflict_spec {S R : FS} (h : noDirFileConflict S R = true) :
    ∀ p, S.isDir p = true → R.isFile p = false := by
  intro p hp
  by_contra hc
  rw [Bool.not_eq_false, FS.isFile] at hc
  obtain ⟨fd, hfd⟩ := Option.isSome_iff_exists.mp hc
  have hmem := lookFD_mem hfd
  rw [noDirFileConflict, List.all_eq_true] at h
  have h2 := h (p, fd) hmem
  rw [bnot_eq_true_iff] at h2
  rw [hp] at h2
  cases h2


/-- C1, counterexample to the claim as stated: the source holds an empty
directory `d`, the replica a regular file `d`.  `os.path.exists` is true for
the file, so `os.makedirs` is skipped; there are no files to copy; in the
subtractive pass the source path of file `d` exists (as a directory), so
nothing is removed.  The cycle performs no operation, records no failure,
and the replica still disagrees with the source. -/
theorem c1_convergence_counterexample :
    cexS1.wfb = true ∧
    cexR1.wfb = true ∧
    syncCycle digLen cexS1 cexR1 = PassOut.ok { fs := cexR1, count := 0, evs := [] } ∧
    noFail (syncCycle digLen cexS1 cexR1).st.evs = true ∧
    (syncCycle digLen cexS1 cexR1).st.fs.isDir ["d"] = false ∧
    cexS1.isDir ["d"] = true := by
  decide

/-- C1, amended: convergence holds for well-formed trees provided
additionally that no replica file occupies a path where the source has a
directory: after one failure-free cycle the replica's files, directories
and per-file fingerprints all match the source's. -/
theorem c1_convergence (dig : List Nat → Nat) (S R : FS)
    (hS : S.wfb = true) (hR : R.wfb = true)
    (hc : noDirFileConflict S R = true)
    (F : St) (hrun : syncCycle dig S R = PassOut.ok F)
    (hnf : noFail F.evs = true) :
    (∀ p, F.fs.isFile p = S.isFile p) ∧
    (∀ p, F.fs.isDir p = S.isDir p) ∧
    (∀ p, calculate_sha256 dig F.fs p = calculate_sha256 dig S p) := by
  rw [wfb_iff] at hS hR
  have hconf := noDirFileConflict_spec hc
  have hadd : runAdd dig S S.addWalk { fs := R, count := 0, evs := [] } =
      PassOut.ok (addFold dig S S.addWalk { fs := R, count := 0, evs := [] }) :=
    runAdd_eq_ok addWalk_no_err _
  have hsync : syncCycle dig S R = remove_files_and_directories S
      (addFold dig S S.addWalk { fs := R, count := 0, evs := [] }) := by
    rw [syncCycle, sync_folders, add_files_and_directories, hadd]
  rw [hsync, remove_files_and_directories] at hrun
  have hshape : StepShape (addFold dig S S.addWalk { fs := R, count := 0, evs := [] }) F := by
    have h := @runRemove_shape S
      (addFold dig S S.addWalk { fs := R, count := 0, evs := [] }).fs.removeWalk
      (addFold dig S S.addWalk { fs := R, count := 0, evs := [] })
    rw [hrun] at h
    exact h
  have hnf1 : noFail (addFold dig S S.addWalk { fs := R, count := 0, evs := [] }).evs = true :=
    noFail_of_shape hshape hnf
  obtain ⟨hwf1, hdirO, hfileO, hA1, hA2⟩ := add_pass_main hS hR hadd hnf1
  obtain ⟨hBfile, hBdir, hBkeep⟩ := remove_pass_main hS hwf1 hrun hnf
  have hcfile : ∀ p, F.fs.isFile p = S.isFile p := by
    intro p
    refine bool_eq_of_iff ?_
    constructor
    · intro hf
      obtain ⟨h1, h2⟩ := (hBfile p).mp hf
      rcases hfileO p h1 with hRp | hSp
      · rw [FS.pathExists, Bool.or_eq_true] at h2
        rcases h2 with h2 | h2
        · exact h2
        · rw [hconf p h2] at hRp
          cases hRp
      · exact hSp
    · intro hf
      have hok := hA2 p hf
      refine (hBfile p).mpr ⟨hok.1, ?_⟩
      rw [FS.pathExists, hf]
      simp
  refine ⟨hcfile, ?_, ?_⟩
  · intro p
    refine bool_eq_of_iff ?_
    constructor
    · intro hd
      obtain ⟨h1, h2⟩ := (hBdir p).mp hd
      rw [FS.pathExists, Bool.or_eq_true] at h2
      rcases h2 with h2 | h2
      · have hok := hA2 p h2
        rw [hwf1.isDir_eq_false_of_isFile hok.1] at h1
        cases h1
      · exact h2
    · intro hd
      have hex := hA1 p hd
      have h1 : (addFold dig S S.addWalk { fs := R, count := 0, evs := [] }).fs.isDir p =
          true := by
        rw [FS.pathExists, Bool.or_eq_true] at hex
        rcases hex with hex | hex
        · rcases hfileO p hex with hRp | hSp
          · rw [hconf p hd] at hRp
            cases hRp
          · rw [hS.isFile_eq_false_of_isDir hd] at hSp
            cases hSp
        · exact hex
      refine (hBdir p).mpr ⟨h1, ?_⟩
      rw [FS.pathExists, hd]
      simp
  · intro p
    by_cases hf : S.isFile p = true
    · have hok := hA2 p hf
      have hsp : S.pathExists p = true := by
        rw [FS.pathExists, hf]
        simp
      have hlp := hBkeep p hsp
      rw [calculate_sha256_congr hlp]
      exact hok.2.1
    · have hf' : S.isFile p = false := by simpa using hf
      have hFf : F.fs.isFile p = false := by
        rw [hcfile p]
        exact hf'
      rw [calculate_sha256_eq_none_of_not_isFile hf',
        calculate_sha256_eq_none_of_not_isFile hFf]

/-- Witness for C1 at a concrete input: a nested source tree is mirrored
into a replica that starts with one stale file. -/
theorem c1_convergence_witness :
    (∀ p, (syncCycle digLen { files := [([ "x", "g" ], fdPlain)], dirs := [[], ["x"]] }
        { files := [([ "old" ], fdOther)], dirs := [[]] }).st.fs.isFile p =
      FS.isFile { files := [([ "x", "g" ], fdPlain)], dirs := [[], ["x"]] } p) ∧
    (∀ p, (syncCycle digLen { files := [([ "x", "g" ], fdPlain)], dirs := [[], ["x"]] }
        { files := [([ "old" ], fdOther)], dirs := [[]] }).st.fs.isDir p =
      FS.isDir { files := [([ "x", "g" ], fdPlain)], dirs := [[], ["x"]] } p) := by
  have h := c1_convergence digLen
    { files := [([ "x", "g" ], fdPlain)], dirs := [[], ["x"]] }
    { files := [([ "old" ], fdOther)], dirs := [[]] }
    (by decide) (by decide) (by decide)
    (syncCycle digLen { files := [([ "x", "g" ], fdPlain)], dirs := [[], ["x"]] }
      { files := [([ "old" ], fdOther)], dirs := [[]] }).st
    (by decide) (by decide)
  exact ⟨h.1, h.2.1⟩

/-- A file already in sync is skipped without any state change. -/
theorem fileStep_skip {dig : List Nat → Nat} {S : FS} {d : Path} {f : Seg} {st : St}
    (hex : st.fs.pathExists (d ++ [f]) = true)
    (heq : calculate_sha256 dig st.fs (d ++ [f]) = calculate_sha256 dig S (d ++ [f]))
    (hsome : (calculate_sha256 dig S (d ++ [f])).isSome = true) :
    fileStep dig S d f st = st := by
  simp only [fileStep]
  rw [if_pos hex]
  have h1 : (calculate_sha256 dig S (d ++ [f])).isNone = false := by
    cases hcs : calculate_sha256 dig S (d ++ [f]) with
    | none =>
      rw [hcs] at hsome
      simp at hsome
    | some v => rfl
  have h2 : (calculate_sha256 dig st.fs (d ++ [f])).isNone = false := by
    rw [heq]
    exact h1
  have hne : ¬ (calculate_sha256 dig S (d ++ [f]) ≠ calculate_sha256 dig st.fs (d ++ [f])) :=
    fun h => h heq.symm
  rw [if_neg hne, h1, h2]
  simp

theorem dirStep_skip {st : St} {d : Path} (hex : st.fs.pathExists d = true) :
    dirStep st d = st := by
  simp [dirStep, hex]

theorem addDirStep_skip {dig : List Nat → Nat} {S : FS} {st : St} {d : Path}
    {files : List Seg} (hex : st.fs.pathExists d = true)
    (hfiles : ∀ f ∈ files, st.fs.pathExists (d ++ [f]) = true ∧
      calculate_sha256 dig st.fs (d ++ [f]) = calculate_sha256 dig S (d ++ [f]) ∧
      (calculate_sha256 dig S (d ++ [f])).isSome = true) :
    addDirStep dig S st d files = st := by
  rw [addDirStep, dirStep_skip hex]
  induction files with
  | nil => rfl
  | cons f fl ih =>
    rw [List.foldl_cons]
    obtain ⟨h1, h2, h3⟩ := hfiles f (List.mem_cons_self f fl)
    rw [fileStep_skip h1 h2 h3]
    exact ih fun g hg => hfiles g (List.mem_cons_of_mem f hg)

theorem addFold_skip {dig : List Nat → Nat} {S : FS} :
    ∀ (L : List WEv) (st : St),
      (∀ d files, WEv.visit d files ∈ L → st.fs.pathExists d = true ∧
        ∀ f ∈ files, st.fs.pathExists (d ++ [f]) = true ∧
          calculate_sha256 dig st.fs (d ++ [f]) = calculate_sha256 dig S (d ++ [f]) ∧
          (calculate_sha256 dig S (d ++ [f])).isSome = true) →
      addFold dig S L st = st := by
  intro L
  induction L with
  | nil => exact fun st _ => rfl
  | cons e rest ih =>
    intro st hL
    cases e with
    | err =>
      have hstep : addFold dig S (WEv.err :: rest) st = addFold dig S rest st := rfl
      rw [hstep]
      exact ih st fun d files hm => hL d files (List.mem_cons_of_mem _ hm)
    | visit d files =>
      have hstep : addFold dig S (WEv.visit d files :: rest) st =
          addFold dig S rest (addDirStep dig S st d files) := rfl
      obtain ⟨h1, h2⟩ := hL d files (List.mem_cons_self _ _)
      rw [hstep, addDirStep_skip h1 h2]
      exact ih st fun d files hm => hL d files (List.mem_cons_of_mem _ hm)

theorem removeFileStep_skip {source : FS} {d : Path} {f : Seg} {st : St}
    (hex : source.pathExists (d ++ [f]) = true) :
    removeFileStep source d f st = st := by
  simp [removeFileStep, hex]

theorem removeDirStep_skip {source : FS} {st : St} {d : Path} {files : List Seg}
    (hexd : source.pathExists d = true)
    (hfiles : ∀ f ∈ files, source.pathExists (d ++ [f]) = true) :
    removeDirStep source st d files = st := by
  simp only [removeDirStep]
  rw [if_pos hexd]
  induction files with
  | nil => rfl
  | cons f fl ih =>
    rw [List.foldl_cons, removeFileStep_skip (hfiles f (List.mem_cons_self f fl))]
    exact ih fun g hg => hfiles g (List.mem_cons_of_mem f hg)

theorem removeFold_skip {source : FS} :
    ∀ (L : List WEv) (st : St),
      (∀ d files, WEv.visit d files ∈ L → source.pathExists d = true ∧
        ∀ f ∈ files, source.pathExists (d ++ [f]) = true) →
      removeFold source L st = st := by
  intro L
  induction L with
  | nil => exact fun st _ => rfl
  | cons e rest ih =>
    intro st hL
    cases e with
    | err =>
      have hstep : removeFold source (WEv.err :: rest) st = removeFold source rest st := rfl
      rw [hstep]
      exact ih st fun d files hm => hL d files (List.mem_cons_of_mem _ hm)
    | visit d files =>
      have hstep : removeFold source (WEv.visit d files :: rest) st =
          removeFold source rest (removeDirStep source st d files) := rfl
      obtain ⟨h1, h2⟩ := hL d files (List.mem_cons_self _ _)
      rw [hstep, removeDirStep_skip h1 h2]
      exact ih st fun d files hm => hL d files (List.mem_cons_of_mem _ hm)

/-- C2: after one failure-free cycle, a second cycle performs no operation
at all: it returns the same replica and a zero change counter (the empty
event log then prints "No files changed"). -/
theorem c2_idempotence (dig : List Nat → Nat) (S R : FS)
    (hS : S.wfb = true) (hR : R.wfb = true)
    (F1 : St) (hrun1 : syncCycle dig S R = PassOut.ok F1)
    (hnf1 : noFail F1.evs = true) :
    syncCycle dig S F1.fs = PassOut.ok { fs := F1.fs, count := 0, evs := [] } := by
  rw [wfb_iff] at hS hR
  have hadd : runAdd dig S S.addWalk { fs := R, count := 0, evs := [] } =
      PassOut.ok (addFold dig S S.addWalk { fs := R, count := 0, evs := [] }) :=
    runAdd_eq_ok addWalk_no_err _
  have hsync : syncCycle dig S R = remove_files_and_directories S
      (addFold dig S S.addWalk { fs := R, count := 0, evs := [] }) := by
    rw [syncCycle, sync_folders, add_files_and_directories, hadd]
  rw [hsync, remove_files_and_directories] at hrun1
  have hshape : StepShape (addFold dig S S.addWalk { fs := R, count := 0, evs := [] }) F1 := by
    have h := @runRemove_shape S
      (addFold dig S S.addWalk { fs := R, count := 0, evs := [] }).fs.removeWalk
      (addFold dig S S.addWalk { fs := R, count := 0, evs := [] })
    rw [hrun1] at h
    exact h
  have hnfa : noFail (addFold dig S S.addWalk { fs := R, count := 0, evs := [] }).evs = true :=
    noFail_of_shape hshape hnf1
  obtain ⟨hwf1, hdirO, hfileO, hA1, hA2⟩ := add_pass_main hS hR hadd hnfa
  obtain ⟨hBfile, hBdir, hBkeep⟩ := remove_pass_main hS hwf1 hrun1 hnf1
  have hF1file : ∀ p, S.isFile p = true → FileOK dig S F1.fs p := by
    intro p hp
    have hok := hA2 p hp
    have hsp : S.pathExists p = true := by
      rw [FS.pathExists, hp]
      simp
    exact FileOK_congr (hBkeep p hsp) hok
  have hF1dir : ∀ p, S.isDir p = true → F1.fs.pathExists p = true := by
    intro p hp
    have hsp : S.pathExists p = true := by
      rw [FS.pathExists, hp]
      simp
    have hex1 := hA1 p hp
    rw [FS.pathExists, Bool.or_eq_true] at hex1
    rw [FS.pathExists, Bool.or_eq_true]
    rcases hex1 with hex1 | hex1
    · left
      exact (hBfile p).mpr ⟨hex1, hsp⟩
    · right
      exact (hBdir p).mpr ⟨hex1, hsp⟩
  have hadd2 : addFold dig S S.addWalk { fs := F1.fs, count := 0, evs := [] } =
      { fs := F1.fs, count := 0, evs := [] } := by
    refine addFold_skip S.addWalk _ ?_
    intro d files hm
    obtain ⟨hd, hfe⟩ := mem_addWalk_iff.mp hm
    refine ⟨hF1dir d (isDir_iff_mem.mpr hd), ?_⟩
    intro f hf
    rw [hfe] at hf
    have hsf : S.isFile (d ++ [f]) = true := isFile_of_mem_filesIn hf
    obtain ⟨h1, h2, h3⟩ := hF1file (d ++ [f]) hsf
    refine ⟨?_, h2, h3⟩
    rw [FS.pathExists, h1]
    simp
  have hrem2 : removeFold S F1.fs.removeWalk { fs := F1.fs, count := 0, evs := [] } =
      { fs := F1.fs, count := 0, evs := [] } := by
    refine removeFold_skip _ _ ?_
    intro d files hm
    obtain ⟨hd, hfe⟩ := mem_removeWalk_iff.mp hm
    constructor
    · exact ((hBdir d).mp (isDir_iff_mem.mpr hd)).2
    · intro f hf
      rw [hfe] at hf
      have hFf : F1.fs.isFile (d ++ [f]) = true := isFile_of_mem_filesIn hf
      exact ((hBfile (d ++ [f])).mp hFf).2
  have hadd2run : runAdd dig S S.addWalk { fs := F1.fs, count := 0, evs := [] } =
      PassOut.ok { fs := F1.fs, count := 0, evs := [] } := by
    rw [runAdd_eq_ok addWalk_no_err, hadd2]
  rw [syncCycle, sync_folders, add_files_and_directories, hadd2run]
  show remove_files_and_directories S { fs := F1.fs, count := 0, evs := [] } =
      PassOut.ok { fs := F1.fs, count := 0, evs := [] }
  rw [remove_files_and_directories, runRemove_eq_ok removeWalk_no_err]
  exact congrArg PassOut.ok hrem2

/-- Witness for C2: first cycle copies one file into an empty replica; the
second cycle is a no-op with counter zero. -/
theorem c2_idempotence_witness :
    syncCycle digLen { files := [([ "a" ], fdPlain)], dirs := [[]] }
        (PassOut.st (syncCycle digLen { files := [([ "a" ], fdPlain)], dirs := [[]] }
          rootOnly)).fs =
      PassOut.ok { fs := (PassOut.st (syncCycle digLen
        { files := [([ "a" ], fdPlain)], dirs := [[]] } rootOnly)).fs, count := 0, evs := [] } := by
  exact c2_idempotence digLen { files := [([ "a" ], fdPlain)], dirs := [[]] } rootOnly
    (by decide) (by decide)
    (PassOut.st (syncCycle digLen { files := [([ "a" ], fdPlain)], dirs := [[]] } rootOnly))
    (by decide) (by decide)

/-! ### C4: locating the `copied` events of the additive pass -/

theorem mem_evs_of_shape {s1 s2 : St} (h : StepShape s1 s2) {e : Ev}
    (he : e ∈ s1.evs) : e ∈ s2.evs := by
  obtain ⟨l, hl, _⟩ := h
  rw [hl]
  exact List.mem_append_left _ he

theorem copied_not_mem_digestFails {c1 c2 : Prop} [Decidable c1] [Decidable c2]
    {p q : Path} :
    Ev.copied q ∉ ((if c1 then [Ev.digestFail p] else []) ++
      (if c2 then [Ev.digestFail p] else [])) := by
  by_cases h1 : c1 <;> by_cases h2 : c2 <;> simp [h1, h2]

theorem copyAttempt_copied_origin {source : FS} {p : Path} {f : Seg} {st : St} {q : Path}
    (h : Ev.copied q ∈ (copyAttempt source p f st).evs) :
    Ev.copied q ∈ st.evs ∨ q = p := by
  cases hs : source.lookupFile p with
  | none =>
    have he : (copyAttempt source p f st).evs = st.evs ++ [Ev.copyFail p] := by
      simp [copyAttempt, hs]
    rw [he] at h
    rcases List.mem_append.mp h with h | h
    · exact Or.inl h
    · simp at h
  | some fd =>
    cases hc : FS.copy2 st.fs p f fd with
    | none =>
      have he : (copyAttempt source p f st).evs = st.evs ++ [Ev.copyFail p] := by
        simp [copyAttempt, hs, hc]
      rw [he] at h
      rcases List.mem_append.mp h with h | h
      · exact Or.inl h
      · simp at h
    | some fs2 =>
      have he : (copyAttempt source p f st).evs = st.evs ++ [Ev.copied p] := by
        simp [copyAttempt, hs, hc]
      rw [he] at h
      rcases List.mem_append.mp h with h | h
      · exact Or.inl h
      · rw [List.mem_singleton] at h
        injection h with h
        exact Or.inr h

theorem fileStep_copied_origin {dig : List Nat → Nat} {source : FS} {d : Path} {f : Seg}
    {st : St} {q : Path}
    (h : Ev.copied q ∈ (fileStep dig source d f st).evs) :
    Ev.copied q ∈ st.evs ∨ q = d ++ [f] := by
  by_cases hex : st.fs.pathExists (d ++ [f]) = true
  · have hfs : fileStep dig source d f st =
        (if calculate_sha256 dig source (d ++ [f]) ≠ calculate_sha256 dig st.fs (d ++ [f]) then
          copyAttempt source (d ++ [f]) f
            { st with evs := st.evs ++
              ((if (calculate_sha256 dig source (d ++ [f])).isNone then [Ev.digestFail (d ++ [f])]
                else []) ++
               (if (calculate_sha256 dig st.fs (d ++ [f])).isNone then [Ev.digestFail (d ++ [f])]
                else [])) }
        else
          { st with evs := st.evs ++
            ((if (calculate_sha256 dig source (d ++ [f])).isNone then [Ev.digestFail (d ++ [f])]
              else []) ++
             (if (calculate_sha256 dig st.fs (d ++ [f])).isNone then [Ev.digestFail (d ++ [f])]
              else [])) }) := by
      simp only [fileStep]
      rw [if_pos hex]
    by_cases hne : calculate_sha256 dig source (d ++ [f]) ≠ calculate_sha256 dig st.fs (d ++ [f])
    · rw [hfs, if_pos hne] at h
      rcases copyAttempt_copied_origin h with h | h
      · rcases List.mem_append.mp h with h | h
        · exact Or.inl h
        · exact absurd h copied_not_mem_digestFails
      · exact Or.inr h
    · rw [hfs, if_neg hne] at h
      rcases List.mem_append.mp h with h | h
      · exact Or.inl h
      · exact absurd h copied_not_mem_digestFails
  · have hfs : fileStep dig source d f st = copyAttempt source (d ++ [f]) f st := by
      simp only [fileStep]
      rw [if_neg hex]
    rw [hfs] at h
    exact copyAttempt_copied_origin h

theorem dirStep_copied_origin {st : St} {d : Path} {q : Path}
    (h : Ev.copied q ∈ (dirStep st d).evs) : Ev.copied q ∈ st.evs := by
  by_cases hex : st.fs.pathExists d = true
  · have he : (dirStep st d).evs = st.evs := by simp [dirStep, hex]
    rwa [he] at h
  · have hex' : st.fs.pathExists d = false := by simpa using hex
    by_cases hcan : st.fs.canMakedirs d = true
    · have he : (dirStep st d).evs = st.evs ++ [Ev.createdDir d] := by
        simp [dirStep, hex', hcan]
      rw [he] at h
      rcases List.mem_append.mp h with h | h
      · exact h
      · simp at h
    · have hcan' : st.fs.canMakedirs d = false := by simpa using hcan
      have he : (dirStep st d).evs = st.evs ++ [Ev.createDirFail d] := by
        simp [dirStep, hex', hcan']
      rw [he] at h
      rcases List.mem_append.mp h with h | h
      · exact h
      · simp at h

theorem filesFold_copied_origin {dig : List Nat → Nat} {source : FS} {d : Path} :
    ∀ (files : List Seg) (st : St) {q : Path},
      Ev.copied q ∈ (files.foldl (fun st g => fileStep dig source d g st) st).evs →
      Ev.copied q ∈ st.evs ∨ ∃ g ∈ files, q = d ++ [g] := by
  intro files
  induction files with
  | nil => intro st q h; exact Or.inl h
  | cons g fl ih =>
    intro st q h
    rw [List.foldl_cons] at h
    rcases ih (fileStep dig source d g st) h with h | ⟨g', hg', he⟩
    · rcases fileStep_copied_origin h with h | h
      · exact Or.inl h
      · exact Or.inr ⟨g, List.mem_cons_self g fl, h⟩
    · exact Or.inr ⟨g', List.mem_cons_of_mem g hg', he⟩

theorem addDirStep_copied_origin {dig : List Nat → Nat} {source : FS} {st : St} {d : Path}
    {files : List Seg} {q : Path}
    (h : Ev.copied q ∈ (addDirStep dig source st d files).evs) :
    Ev.copied q ∈ st.evs ∨ ∃ g ∈ files, q = d ++ [g] := by
  rw [addDirStep] at h
  rcases filesFold_copied_origin files (dirStep st d) h with h | h
  · exact Or.inl (dirStep_copied_origin h)
  · exact Or.inr h

theorem addFold_copied_origin {dig : List Nat → Nat} {source : FS} :
    ∀ (L : List WEv) (st : St) {q : Path},
      Ev.copied q ∈ (addFold dig source L st).evs →
      Ev.copied q ∈ st.evs ∨
        ∃ d files, WEv.visit d files ∈ L ∧ ∃ g ∈ files, q = d ++ [g] := by
  intro L
  induction L with
  | nil => intro st q h; exact Or.inl h
  | cons e rest ih =>
    intro st q h
    cases e with
    | err =>
      have hstep : addFold dig source (WEv.err :: rest) st = addFold dig source rest st := rfl
      rw [hstep] at h
      rcases ih st h with h | ⟨d, files, hm, hg⟩
      · exact Or.inl h
      · exact Or.inr ⟨d, files, List.mem_cons_of_mem _ hm, hg⟩
    | visit d files =>
      have hstep : addFold dig source (WEv.visit d files :: rest) st =
          addFold dig source rest (addDirStep dig source st d files) := rfl
      rw [hstep] at h
      rcases ih (addDirStep dig source st d files) h with h | ⟨d', files', hm, hg⟩
      · rcases addDirStep_copied_origin h with h | h
        · exact Or.inl h
        · exact Or.inr ⟨d, files, List.mem_cons_self _ _, h⟩
      · exact Or.inr ⟨d', files', List.mem_cons_of_mem _ hm, hg⟩

/-! ### C4: the replica entry at a path is untouched by steps aimed elsewhere -/

theorem fileStep_frame {dig : List Nat → Nat} {S : FS} {d : Path} {f : Seg} {st : St}
    (hwf : WF st.fs)
    (hnf : noFail (fileStep dig S d f st).evs = true)
    {q : Path} (hq : q ≠ d ++ [f]) :
    (fileStep dig S d f st).fs.lookupFile q = st.fs.lookupFile q ∧
    (fileStep dig S d f st).fs.isDir q = st.fs.isDir q := by
  have hmain : fileStep dig S d f st = copyAttempt S (d ++ [f]) f st →
      st.fs.isDir (d ++ [f]) = false →
      (fileStep dig S d f st).fs.lookupFile q = st.fs.lookupFile q ∧
      (fileStep dig S d f st).fs.isDir q = st.fs.isDir q := by
    intro heq hnd
    rw [heq] at hnf ⊢
    obtain ⟨fd, _, _, _, hfs⟩ := copyAttempt_wf_success hnd hnf
    rw [hfs]
    exact ⟨lookupFile_setFile_ne hq, isDir_setFile⟩
  rcases fileStep_characterize hnf with ⟨hex, heq⟩ | ⟨hex, hds, hdr, hsub⟩
  · have hnd : st.fs.isDir (d ++ [f]) = false := by
      rw [FS.pathExists, Bool.or_eq_false_iff] at hex
      exact hex.2
    exact hmain heq hnd
  · rcases hsub with ⟨_, heq⟩ | ⟨_, heq⟩
    · rw [heq]
      exact ⟨rfl, rfl⟩
    · have hfile : st.fs.isFile (d ++ [f]) = true := calculate_sha256_isSome hdr
      exact hmain heq (WF.isDir_eq_false_of_isFile hwf hfile)

theorem dirStep_frame {S : FS} {st : St} {d' : Path}
    (hS : WF S) (hd' : d' ∈ S.dirs) {q : Path} (hq : S.isFile q = true) :
    (dirStep st d').fs.lookupFile q = st.fs.lookupFile q ∧
    (dirStep st d').fs.isDir q = st.fs.isDir q := by
  have hnp : ¬ q <+: d' := by
    intro hpre
    by_cases he : q = d'
    · have h1 : S.isDir q = true := by
        rw [he]
        exact isDir_iff_mem.mpr hd'
      have h2 := WF.isDir_eq_false_of_isFile hS hq
      rw [h1] at h2
      cases h2
    · have h1 : S.isDir q = true := by
        refine WF.dir_of_proper_ancestor hS ?_ hpre he
        rw [FS.pathExists, isDir_iff_mem.mpr hd']
        simp
      have h2 := WF.isDir_eq_false_of_isFile hS hq
      rw [h1] at h2
      cases h2
  by_cases hex : st.fs.pathExists d' = true
  · have he : dirStep st d' = st := by simp [dirStep, hex]
    rw [he]
    exact ⟨rfl, rfl⟩
  · have hex' : st.fs.pathExists d' = false := by simpa using hex
    by_cases hcan : st.fs.canMakedirs d' = true
    · have hfs : (dirStep st d').fs = st.fs.makedirs d' := by
        simp [dirStep, hex', hcan]
      rw [hfs]
      refine ⟨rfl, ?_⟩
      refine bool_eq_of_iff ?_
      rw [isDir_makedirs]
      exact or_iff_left hnp
    · have hcan' : st.fs.canMakedirs d' = false := by simpa using hcan
      have hfs : (dirStep st d').fs = st.fs := by
        simp [dirStep, hex', hcan']
      rw [hfs]
      exact ⟨rfl, rfl⟩

theorem filesFold_frame {dig : List Nat → Nat} {S R : FS} {d : Path} {q : Path} :
    ∀ (files : List Seg) (st : St), AddInv S R st →
      (∀ g ∈ files, S.isFile (d ++ [g]) = true) →
      (∀ g ∈ files, q ≠ d ++ [g]) →
      noFail (files.foldl (fun st g => fileStep dig S d g st) st).evs = true →
      (files.foldl (fun st g => fileStep dig S d g st) st).fs.lookupFile q =
        st.fs.lookupFile q ∧
      (files.foldl (fun st g => fileStep dig S d g st) st).fs.isDir q =
        st.fs.isDir q := by
  intro files
  induction files with
  | nil => intro st _ _ _ _; exact ⟨rfl, rfl⟩
  | cons g fl ih =>
    intro st hinv hfiles hne hnf
    rw [List.foldl_cons] at hnf ⊢
    have hnf1 : noFail (fileStep dig S d g st).evs = true :=
      noFail_of_shape (foldl_shape (fun st f => fileStep_shape) fl (fileStep dig S d g st)) hnf
    have hfr1 := fileStep_frame hinv.wf hnf1 (hne g (List.mem_cons_self g fl))
    have hinv1 : AddInv S R (fileStep dig S d g st) :=
      (fileStep_main hinv (hfiles g (List.mem_cons_self g fl)) hnf1).1
    obtain ⟨h1, h2⟩ := ih (fileStep dig S d g st) hinv1
      (fun g' hg' => hfiles g' (List.mem_cons_of_mem g hg'))
      (fun g' hg' => hne g' (List.mem_cons_of_mem g hg')) hnf
    exact ⟨h1.trans hfr1.1, h2.trans hfr1.2⟩

theorem addFold_frame {dig : List Nat → Nat} {S R : FS} (hS : WF S) {q : Path}
    (hq : S.isFile q = true) :
    ∀ (L : List WEv) (st : St), AddInv S R st →
      (∀ d files, WEv.visit d files ∈ L → d ∈ S.dirs ∧ files = S.filesIn d) →
      (∀ d files, WEv.visit d files ∈ L → d ≠ parent q) →
      noFail (addFold dig S L st).evs = true →
      (addFold dig S L st).fs.lookupFile q = st.fs.lookupFile q ∧
      (addFold dig S L st).fs.isDir q = st.fs.isDir q := by
  intro L
  induction L with
  | nil => intro st _ _ _ _; exact ⟨rfl, rfl⟩
  | cons e rest ih =>
    intro st hinv hwalk hnpar hnf
    cases e with
    | err =>
      have hstep : addFold dig S (WEv.err :: rest) st = addFold dig S rest st := rfl
      rw [hstep] at hnf ⊢
      exact ih st hinv (fun d files hm => hwalk d files (List.mem_cons_of_mem _ hm))
        (fun d files hm => hnpar d files (List.mem_cons_of_mem _ hm)) hnf
    | visit d files =>
      have hstep : addFold dig S (WEv.visit d files :: rest) st =
          addFold dig S rest (addDirStep dig S st d files) := rfl
      rw [hstep] at hnf ⊢
      obtain ⟨hd, hfe⟩ := hwalk d files (List.mem_cons_self _ _)
      have hfiles : ∀ g ∈ files, S.isFile (d ++ [g]) = true := by
        intro g hg
        rw [hfe] at hg
        exact isFile_of_mem_filesIn hg
      have hnfA : noFail (addDirStep dig S st d files).evs = true :=
        noFail_of_shape addFold_shape hnf
      have hinvA : AddInv S R (addDirStep dig S st d files) :=
        (addDirStep_main hS hinv hd hfiles hnfA).1
      have hnfA' : noFail
          ((files.foldl (fun st f => fileStep dig S d f st) (dirStep st d)).evs) = true := hnfA
      have hnfD : noFail (dirStep st d).evs = true :=
        noFail_of_shape (foldl_shape (fun st f => fileStep_shape) files (dirStep st d)) hnfA'
      have hinvD : AddInv S R (dirStep st d) := (dirStep_main hS hinv hd hnfD).1
      have hfrD := @dirStep_frame S st d hS hd q hq
      have hparne : ∀ g ∈ files, q ≠ d ++ [g] := by
        intro g hg he
        have hpq : parent q = d := by
          rw [he]
          exact List.dropLast_concat
        exact hnpar d files (List.mem_cons_self _ _) hpq.symm
      obtain ⟨hl1, hl2⟩ := filesFold_frame files (dirStep st d) hinvD hfiles hparne hnfA'
      obtain ⟨h1, h2⟩ := ih (addDirStep dig S st d files) hinvA
        (fun d' files' hm => hwalk d' files' (List.mem_cons_of_mem _ hm))
        (fun d' files' hm => hnpar d' files' (List.mem_cons_of_mem _ hm)) hnf
      constructor
      · rw [h1, addDirStep, hl1]
        exact hfrD.1
      · rw [h2, addDirStep, hl2]
        exact hfrD.2

/-! ### C4: uniqueness of the visits -/

theorem nodup_split {α : Type} {l : List α} {a : α} (hnd : l.Nodup) (ha : a ∈ l) :
    ∃ l1 l2, l = l1 ++ a :: l2 ∧ a ∉ l1 ∧ a ∉ l2 := by
  obtain ⟨l1, l2, he⟩ := List.append_of_mem ha
  subst he
  rw [List.nodup_append] at hnd
  exact ⟨l1, l2, rfl, fun hm => hnd.2.2 hm (List.mem_cons_self _ _),
    (List.nodup_cons.mp hnd.2.1).1⟩

theorem dirsByDepth_nodup {fs : FS} (hnd : fs.dirs.Nodup) : fs.dirsByDepth.Nodup := by
  rw [FS.dirsByDepth, List.nodup_flatten]
  constructor
  · intro l hl
    obtain ⟨k, _, he⟩ := List.mem_map.mp hl
    rw [← he]
    exact hnd.filter _
  · rw [List.pairwise_map]
    refine List.Pairwise.imp ?_ (List.pairwise_lt_range _)
    intro i j hij
    intro x hxi hxj
    have h1 : x.length = i := by simpa using (List.mem_filter.mp hxi).2
    have h2 : x.length = j := by simpa using (List.mem_filter.mp hxj).2
    omega

theorem eq_concat_of_filesIn_fn {d q : Path} {g : Seg}
    (h : g ∈ (if q.dropLast = d then q.getLast? else none)) : q = d ++ [g] := by
  by_cases hd : q.dropLast = d
  · rw [if_pos hd] at h
    have hq0 : q ≠ [] := by
      rintro rfl
      simp at h
    rw [List.getLast?_eq_getLast_of_ne_nil hq0] at h
    rw [Option.mem_def] at h
    injection h with h2
    rw [← hd, ← h2]
    exact (List.dropLast_append_getLast hq0).symm
  · rw [if_neg hd] at h
    simp at h

theorem filesIn_nodup {fs : FS} (hnd : (fs.files.map Prod.fst).Nodup) {d : Path} :
    (fs.filesIn d).Nodup := by
  rw [FS.filesIn]
  refine List.Nodup.filterMap ?_ hnd
  intro q q' g hq hq'
  rw [eq_concat_of_filesIn_fn hq, eq_concat_of_filesIn_fn hq']

theorem mem_map_visit {S : FS} {l : List Path} {d : Path} {files : List Seg}
    (h : WEv.visit d files ∈ l.map fun d' => WEv.visit d' (S.filesIn d')) :
    d ∈ l ∧ files = S.filesIn d := by
  obtain ⟨d0, hd0, he⟩ := List.mem_map.mp h
  injection he with h1 h2
  subst h1
  exact ⟨hd0, h2.symm⟩

/-! ### C4: the step for a file logs `copied` exactly under the line-93 test -/

theorem fileStep_copied_iff {dig : List Nat → Nat} {S : FS} {d : Path} {f : Seg} {st : St}
    (hnf : noFail (fileStep dig S d f st).evs = true) :
    Ev.copied (d ++ [f]) ∈ (fileStep dig S d f st).evs ↔
      (Ev.copied (d ++ [f]) ∈ st.evs ∨
        (¬ st.fs.pathExists (d ++ [f]) = true ∨
          calculate_sha256 dig S (d ++ [f]) ≠ calculate_sha256 dig st.fs (d ++ [f]))) := by
  have hcopy : fileStep dig S d f st = copyAttempt S (d ++ [f]) f st →
      Ev.copied (d ++ [f]) ∈ (fileStep dig S d f st).evs := by
    intro heq
    rw [heq] at hnf ⊢
    obtain ⟨fd, fs2, _, _, he⟩ := copyAttempt_success hnf
    rw [he]
    show Ev.copied (d ++ [f]) ∈ st.evs ++ [Ev.copied (d ++ [f])]
    exact List.mem_append_right _ (List.mem_cons_self _ _)
  rcases fileStep_characterize hnf with ⟨hex, heq⟩ | ⟨hex, hds, hdr, hsub⟩
  · constructor
    · intro _
      right
      left
      rw [hex]
      simp
    · intro _
      exact hcopy heq
  · rcases hsub with ⟨heqd, heq⟩ | ⟨hne, heq⟩
    · rw [heq]
      constructor
      · intro h
        exact Or.inl h
      · intro h
        rcases h with h | h
        · exact h
        · rcases h with h | h
          · rw [hex] at h
            exact absurd rfl h
          · exact absurd heqd h
    · constructor
      · intro _
        right
        right
        exact hne
      · intro _
        exact hcopy heq

/-- One visit of `parent p` in the additive pass logs `copied p` exactly
when the line-93 condition holds for the state at the start of the visit:
the directory step and the steps for sibling files never touch the entry
at `p`, and only the step for `p` itself can log `copied p`. -/
theorem addDirStep_copied_iff {dig : List Nat → Nat} {S R : FS} (hS : WF S)
    {st : St} (hinv : AddInv S R st) {p : Path} (hp0 : p ≠ [])
    (hp : S.isFile p = true)
    (hnf : noFail (addDirStep dig S st (parent p) (S.filesIn (parent p))).evs = true) :
    Ev.copied p ∈ (addDirStep dig S st (parent p) (S.filesIn (parent p))).evs ↔
      (Ev.copied p ∈ st.evs ∨
        (¬ st.fs.pathExists p = true ∨
          calculate_sha256 dig S p ≠ calculate_sha256 dig st.fs p)) := by
  have hdecomp : parent p ++ [p.getLast hp0] = p := List.dropLast_append_getLast hp0
  have hfin : p.getLast hp0 ∈ S.filesIn (parent p) := by
    apply mem_filesIn_of_isFile
    rw [hdecomp]
    exact hp
  obtain ⟨fl1, fl2, hfsplit, hgl1, hgl2⟩ := nodup_split (filesIn_nodup hS.keysNodup) hfin
  have hfl1files : ∀ g ∈ fl1, S.isFile (parent p ++ [g]) = true := by
    intro g hg
    apply isFile_of_mem_filesIn
    rw [hfsplit]
    exact List.mem_append_left _ hg
  have hd : parent p ∈ S.dirs := by
    obtain ⟨fd0, hfd0⟩ :=
      Option.isSome_iff_exists.mp (show (S.lookupFile p).isSome = true from hp)
    exact isDir_iff_mem.mp (WF.fileParent hS (p, fd0) (lookFD_mem hfd0)).2
  rw [addDirStep, hfsplit] at hnf ⊢
  simp only [List.foldl_append, List.foldl_cons] at hnf ⊢
  set TD : St := dirStep st (parent p) with hTD
  set TC : St := List.foldl (fun st g => fileStep dig S (parent p) g st) TD fl1 with hTC
  set TF : St := fileStep dig S (parent p) (p.getLast hp0) TC with hTF
  have hnfF : noFail TF.evs = true :=
    noFail_of_shape (foldl_shape (fun st f => fileStep_shape) fl2 TF) hnf
  have hnfC : noFail TC.evs = true := noFail_of_shape fileStep_shape hnfF
  have hnfD : noFail TD.evs = true :=
    noFail_of_shape (foldl_shape (fun st f => fileStep_shape) fl1 TD) hnfC
  have hinvD : AddInv S R TD := (dirStep_main hS hinv hd hnfD).1
  have hfrD := @dirStep_frame S st (parent p) hS hd p hp
  have hfl1ne : ∀ g ∈ fl1, p ≠ parent p ++ [g] := by
    intro g hg he
    have hgf : g = p.getLast hp0 := by
      have h2 : parent p ++ [g] = parent p ++ [p.getLast hp0] := by
        rw [← he, hdecomp]
      have h3 := List.append_cancel_left h2
      injection h3
    rw [hgf] at hg
    exact hgl1 hg
  have hfrC := filesFold_frame fl1 TD hinvD hfl1files hfl1ne hnfC
  have hlookC : TC.fs.lookupFile p = st.fs.lookupFile p := hfrC.1.trans hfrD.1
  have hdirC : TC.fs.isDir p = st.fs.isDir p := hfrC.2.trans hfrD.2
  have hfileC : TC.fs.isFile p = st.fs.isFile p := by
    show (TC.fs.lookupFile p).isSome = (st.fs.lookupFile p).isSome
    rw [hlookC]
  have hexC : TC.fs.pathExists p = st.fs.pathExists p := by
    rw [FS.pathExists, FS.pathExists, hfileC, hdirC]
  have hcalcC : calculate_sha256 dig TC.fs p = calculate_sha256 dig st.fs p :=
    calculate_sha256_congr hlookC
  have hiffF : Ev.copied p ∈ TF.evs ↔
      (Ev.copied p ∈ TC.evs ∨
        (¬ TC.fs.pathExists p = true ∨
          calculate_sha256 dig S p ≠ calculate_sha256 dig TC.fs p)) := by
    have h0 := fileStep_copied_iff hnfF
    rw [hdecomp] at h0
    exact h0
  have hmemC : Ev.copied p ∈ TC.evs ↔ Ev.copied p ∈ st.evs := by
    constructor
    · intro hmem
      rcases filesFold_copied_origin fl1 TD hmem with hmem | ⟨g, hg, he⟩
      · exact dirStep_copied_origin hmem
      · exact absurd he (hfl1ne g hg)
    · intro hmem
      refine mem_evs_of_shape (foldl_shape (fun st f => fileStep_shape) fl1 TD) ?_
      exact mem_evs_of_shape dirStep_shape hmem
  have hmemB : Ev.copied p ∈
      (List.foldl (fun st g => fileStep dig S (parent p) g st) TF fl2).evs ↔
      Ev.copied p ∈ TF.evs := by
    constructor
    · intro hmem
      rcases filesFold_copied_origin fl2 TF hmem with hmem | ⟨g, hg, he⟩
      · exact hmem
      · have hgf : g = p.getLast hp0 := by
          have h2 : parent p ++ [g] = parent p ++ [p.getLast hp0] := by
            rw [← he, hdecomp]
          have h3 := List.append_cancel_left h2
          injection h3
        rw [hgf] at hg
        exact absurd hg hgl2
    · intro hmem
      exact mem_evs_of_shape (foldl_shape (fun st f => fileStep_shape) fl2 TF) hmem
  rw [hmemB, hiffF, hmemC, hexC, hcalcC]

/-- Master lemma for C4: over the real walk of a failure-free additive
pass, `copied p` is logged exactly when the initial replica misses the file
or the fingerprints differ.  The walk visits `parent p` exactly once; the
replica entry at `p` is untouched before that visit and the `copied p`
event can only be produced by the step for `p` itself. -/
theorem addFold_copied_iff {dig : List Nat → Nat} {S R : FS} (hS : WF S) (hR : WF R)
    {p : Path} (hp : S.isFile p = true)
    (hnf : noFail (addFold dig S S.addWalk { fs := R, count := 0, evs := [] }).evs = true) :
    Ev.copied p ∈ (addFold dig S S.addWalk { fs := R, count := 0, evs := [] }).evs ↔
      (¬ R.pathExists p = true ∨
        calculate_sha256 dig S p ≠ calculate_sha256 dig R p) := by
  have hp' : (S.lookupFile p).isSome = true := hp
  obtain ⟨fd0, hfd0⟩ := Option.isSome_iff_exists.mp hp'
  have hmem0 := lookFD_mem hfd0
  have hp0 : p ≠ [] := (WF.fileParent hS (p, fd0) hmem0).1
  have hpd : S.isDir (parent p) = true := (WF.fileParent hS (p, fd0) hmem0).2
  have hd : parent p ∈ S.dirs := isDir_iff_mem.mp hpd
  obtain ⟨l1, l2, hsplit, hnl1, hnl2⟩ :=
    nodup_split (dirsByDepth_nodup hS.dirsNodup) (mem_dirsByDepth.mpr hd)
  have hwalkeq : S.addWalk =
      (l1.map fun d' => WEv.visit d' (S.filesIn d')) ++
        WEv.visit (parent p) (S.filesIn (parent p)) ::
          (l2.map fun d' => WEv.visit d' (S.filesIn d')) := by
    rw [FS.addWalk, hsplit, List.map_append, List.map_cons]
  rw [hwalkeq, addFold_append] at hnf ⊢
  have hconsEq : addFold dig S
      (WEv.visit (parent p) (S.filesIn (parent p)) ::
        l2.map fun d' => WEv.visit d' (S.filesIn d'))
      (addFold dig S (l1.map fun d' => WEv.visit d' (S.filesIn d'))
        { fs := R, count := 0, evs := [] }) =
      addFold dig S (l2.map fun d' => WEv.visit d' (S.filesIn d'))
        (addDirStep dig S
          (addFold dig S (l1.map fun d' => WEv.visit d' (S.filesIn d'))
            { fs := R, count := 0, evs := [] })
          (parent p) (S.filesIn (parent p))) := rfl
  rw [hconsEq] at hnf ⊢
  set stA : St := addFold dig S (l1.map fun d' => WEv.visit d' (S.filesIn d'))
    { fs := R, count := 0, evs := [] } with hstA
  set stV : St := addDirStep dig S stA (parent p) (S.filesIn (parent p)) with hstV
  have hnfV : noFail stV.evs = true := noFail_of_shape addFold_shape hnf
  have hnfA : noFail stA.evs = true := noFail_of_shape addDirStep_shape hnfV
  have hw1 : ∀ d' files', WEv.visit d' files' ∈
      (l1.map fun d'' => WEv.visit d'' (S.filesIn d'')) →
      d' ∈ S.dirs ∧ files' = S.filesIn d' := by
    intro d' files' hm
    obtain ⟨hmem, hfe⟩ := mem_map_visit hm
    refine ⟨?_, hfe⟩
    apply mem_dirsByDepth.mp
    rw [hsplit]
    exact List.mem_append_left _ hmem
  have hne1 : ∀ d' files', WEv.visit d' files' ∈
      (l1.map fun d'' => WEv.visit d'' (S.filesIn d'')) → d' ≠ parent p := by
    intro d' files' hm he
    obtain ⟨hmem, _⟩ := mem_map_visit hm
    rw [he] at hmem
    exact hnl1 hmem
  have hinv0 : AddInv S R { fs := R, count := 0, evs := [] } :=
    ⟨hR, fun q hq => Or.inl hq, fun q hq => Or.inl hq⟩
  have hinvA : AddInv S R stA :=
    (addFold_main hS (l1.map fun d' => WEv.visit d' (S.filesIn d'))
      { fs := R, count := 0, evs := [] } hinv0 hw1 hnfA).1
  have hframeA := addFold_frame hS hp (l1.map fun d' => WEv.visit d' (S.filesIn d'))
    { fs := R, count := 0, evs := [] } hinv0 hw1 hne1 hnfA
  have hlookA : stA.fs.lookupFile p = R.lookupFile p := hframeA.1
  have hdirA : stA.fs.isDir p = R.isDir p := hframeA.2
  have hfileA : stA.fs.isFile p = R.isFile p := by
    show (stA.fs.lookupFile p).isSome = (R.lookupFile p).isSome
    rw [hlookA]
  have hexA : stA.fs.pathExists p = R.pathExists p := by
    rw [FS.pathExists, FS.pathExists, hfileA, hdirA]
  have hcalcA : calculate_sha256 dig stA.fs p = calculate_sha256 dig R p :=
    calculate_sha256_congr hlookA
  have hiffV : Ev.copied p ∈ stV.evs ↔
      (Ev.copied p ∈ stA.evs ∨
        (¬ stA.fs.pathExists p = true ∨
          calculate_sha256 dig S p ≠ calculate_sha256 dig stA.fs p)) :=
    addDirStep_copied_iff hS hinvA hp0 hp hnfV
  have hnotA : Ev.copied p ∉ stA.evs := by
    intro hmem
    rcases addFold_copied_origin (l1.map fun d' => WEv.visit d' (S.filesIn d'))
      { fs := R, count := 0, evs := [] } hmem with hmem | ⟨d', files', hm, g, hg, he⟩
    · simp at hmem
    · obtain ⟨hmem1, _⟩ := mem_map_visit hm
      have hpar : parent p = d' := by
        rw [he]
        exact List.dropLast_concat
      rw [← hpar] at hmem1
      exact hnl1 hmem1
  have hw2ne : ∀ d' files', WEv.visit d' files' ∈
      (l2.map fun d'' => WEv.visit d'' (S.filesIn d'')) → d' ≠ parent p := by
    intro d' files' hm he
    obtain ⟨hmem, _⟩ := mem_map_visit hm
    rw [he] at hmem
    exact hnl2 hmem
  have hmemFinal : Ev.copied p ∈ (addFold dig S
      (l2.map fun d' => WEv.visit d' (S.filesIn d')) stV).evs ↔
      Ev.copied p ∈ stV.evs := by
    constructor
    · intro hmem
      rcases addFold_copied_origin (l2.map fun d' => WEv.visit d' (S.filesIn d')) stV hmem
        with hmem | ⟨d', files', hm, g, hg, he⟩
      · exact hmem
      · have hpar : parent p = d' := by
          rw [he]
          exact List.dropLast_concat
        exact absurd hpar.symm (hw2ne d' files' hm)
    · intro hmem
      exact mem_evs_of_shape addFold_shape hmem
  rw [hmemFinal, hiffV, hexA, hcalcA]
  constructor
  · intro h
    rcases h with h | h
    · exact absurd h hnotA
    · exact h
  · intro h
    exact Or.inr h


/-- C4: in one failure-free additive pass over well-formed trees, a source
file is copied — a `copied` event for its path is logged — if and only if
the replica path does not exist or the two content fingerprints differ
(line 93); consequently a replica file whose content equals its source
counterpart is never recopied, whatever its modification time or mode. -/
theorem c4_copy_condition (dig : List Nat → Nat) (S R : FS)
    (hS : S.wfb = true) (hR : R.wfb = true)
    (p : Path) (hp : S.isFile p = true) (st1 : St)
    (hrun : add_files_and_directories dig S { fs := R, count := 0, evs := [] } =
      PassOut.ok st1)
    (hnf : noFail st1.evs = true) :
    (Ev.copied p ∈ st1.evs ↔
      (¬ R.pathExists p = true ∨
        calculate_sha256 dig S p ≠ calculate_sha256 dig R p)) ∧
    (∀ fdS fdR, S.lookupFile p = some fdS → R.lookupFile p = some fdR →
      fdS.content = fdR.content → fdS.readable = true → fdR.readable = true →
      Ev.copied p ∉ st1.evs) := by
  have hSw : WF S := wfb_iff.mp hS
  have hRw : WF R := wfb_iff.mp hR
  rw [add_files_and_directories, runAdd_eq_ok addWalk_no_err] at hrun
  injection hrun with hrun
  subst hrun
  have hiff := addFold_copied_iff hSw hRw hp hnf
  refine ⟨hiff, ?_⟩
  intro fdS fdR hlS hlR hcont hrS hrR hmem
  rcases hiff.mp hmem with hcase | hcase
  · apply hcase
    rw [FS.pathExists, Bool.or_eq_true]
    left
    rw [FS.isFile, hlR]
    rfl
  · apply hcase
    rw [calculate_sha256_eq, calculate_sha256_eq,
      readFile_of_lookup hlS hrS, readFile_of_lookup hlR hrR, hcont]

/-- Witness for C4: copying into an empty replica satisfies the condition
and logs the event; a replica file with equal content but different
metadata is not recopied. -/
theorem c4_copy_condition_witness :
    srcA.wfb = true ∧ replSame.wfb = true ∧
    (Ev.copied [ "a" ] ∈ (add_files_and_directories digLen srcA
        { fs := rootOnly, count := 0, evs := [] }).st.evs ↔
      (¬ rootOnly.pathExists [ "a" ] = true ∨
        calculate_sha256 digLen srcA [ "a" ] ≠ calculate_sha256 digLen rootOnly [ "a" ])) ∧
    Ev.copied [ "a" ] ∉ (add_files_and_directories digLen srcA
        { fs := replSame, count := 0, evs := [] }).st.evs := by
  refine ⟨by decide, by decide, ?_, ?_⟩
  · have h := c4_copy_condition digLen srcA rootOnly (by decide) (by decide) [ "a" ]
      (by decide) (add_files_and_directories digLen srcA
        { fs := rootOnly, count := 0, evs := [] }).st (by decide) (by decide)
    exact h.1
  · have h := c4_copy_condition digLen srcA replSame (by decide) (by decide) [ "a" ]
      (by decide) (add_files_and_directories digLen srcA
        { fs := replSame, count := 0, evs := [] }).st (by decide) (by decide)
    exact h.2 fdPlain fdPlain2 (by decide) (by decide) (by decide) (by decide) (by decide)

end SyncFolders
